import Mathlib

/-
  Verification of the toyota-race-suite telemetry core.

  Shallow embedding of the Python processing pipeline and the runtime query
  layer.  Machine floats are modelled as exact rationals (every IEEE double
  is a rational number); `np.sqrt` on nonnegative reals is modelled by
  `Real.sqrt`.  Lists model one-dimensional numpy arrays / DataFrame columns
  in row order.
-/

namespace RaceSuite

/-! ## Shared helpers -/

/-- Running cumulative sum with an explicit accumulator,
modelling `np.cumsum` applied after the accumulator prefix. -/
def cumsumFrom (acc : ℚ) : List ℚ → List ℚ
  | [] => []
  | a :: rest => (acc + a) :: cumsumFrom (acc + a) rest

/-- Model of `np.cumsum`. -/
def cumsum (l : List ℚ) : List ℚ := cumsumFrom 0 l

/-- Maximum of a nonempty column, modelling `pandas.Series.max` /
`np.ndarray.max` (0 on the empty list, which the sources never hit). -/
def colMax : List ℚ → ℚ
  | [] => 0
  | a :: rest => rest.foldl max a

/-! ## src/processing/interpolate_trajectories.py — lapdist repair

`interpolate_trajectory` (lines 40-71): detect lap resets on the
interpolated lapdist channel, then repair each lap segment in place. -/

/-- Lap-reset test between adjacent interpolated lapdist samples
(lines 47-48): a drop of more than 100 that lands below 500. -/
def isLapReset (prev cur : ℚ) : Bool :=
  decide (cur < prev - 100) && decide (cur < 500)

/-- Scan carrying the previous value and the index of the current element. -/
def resetIndicesAux (prev : ℚ) (i : ℕ) : List ℚ → List ℕ
  | [] => []
  | c :: rest =>
      if isLapReset prev c then i :: resetIndicesAux c (i + 1) rest
      else resetIndicesAux c (i + 1) rest

/-- Indices `i ≥ 1` at which a lap reset is detected (lines 44-49),
in increasing order. -/
def resetIndices : List ℚ → List ℕ
  | [] => []
  | a :: rest => resetIndicesAux a 1 rest

/-- Lap segments of the interpolated lapdist sequence: the list is cut
immediately before every detected reset (lines 51-52, the slices between
consecutive entries of `lap_boundaries`). -/
def segmentsOf : List ℚ → List (List ℚ)
  | [] => []
  | [a] => [[a]]
  | a :: b :: rest =>
      match segmentsOf (b :: rest) with
      | [] => [[a]]
      | s :: ss =>
          if isLapReset a b then [a] :: s :: ss else (a :: s) :: ss

/-- One repair step (lines 62-71): clamp a decrease up to the previous
repaired value, then clamp an increase to at most `maxdiff`. -/
def repairStep (maxdiff prev cur : ℚ) : ℚ :=
  let v := if cur < prev then prev else cur
  if maxdiff < v - prev then prev + maxdiff else v

/-- Repair the tail of a segment given the previous repaired value. -/
def repairFrom (maxdiff prev : ℚ) : List ℚ → List ℚ
  | [] => []
  | c :: rest =>
      repairStep maxdiff prev c :: repairFrom maxdiff (repairStep maxdiff prev c) rest

/-- Repair one lap segment (lines 57-71): the first sample of a segment is
left untouched, later samples are clamped in sequence. -/
def repairSegment (maxdiff : ℚ) : List ℚ → List ℚ
  | [] => []
  | a :: rest => a :: repairFrom maxdiff a rest

/-- The full repaired lapdist column: every detected lap segment repaired
independently, then re-concatenated. -/
def repairLapdist (maxdiff : ℚ) (l : List ℚ) : List ℚ :=
  ((segmentsOf l).map (repairSegment maxdiff)).flatten

/-- The adjacent-sample invariant the spec asserts for repaired lapdist:
non-decreasing, and the increase bounded by `maxdiff = max_slope * dt`. -/
def RepairedStep (maxdiff a b : ℚ) : Prop := a ≤ b ∧ b - a ≤ maxdiff

/-! ## src/processing/load_raw_data.py — brake rescaling in extract_signals

`extract_signals` (lines 236-244): each brake column is divided by its own
maximum when that maximum is positive, otherwise left unchanged. -/

/-- Brake-column rescaling at the end of `extract_signals`. -/
def normalizeBrakeColumn (l : List ℚ) : List ℚ :=
  let m := colMax l
  if 0 < m then l.map (· / m) else l

/-! ## src/processing/trail_generation.py — trail selection

`build_trail_for_car` (lines 230-246): relative times from lap start, error
on non-positive duration, select rows in the trailing window, fall back to
the last 50 rows if that selection is empty.  Rows are modelled by their
timestamps. -/

/-- Model of `DataFrame.tail (n)`: the last `n` rows. -/
def tailRows (n : ℕ) (l : List ℚ) : List ℚ := l.drop (l.length - n)

/-- Trail selection of `build_trail_for_car`, keeping each selected row
(identified by its timestamp).  `t_rel` is time since the first row,
`t_max` its maximum; non-positive `t_max` raises; the mask keeps rows with
`t_rel >= t_max - trail_seconds`; the `tail(50)` fallback fires only when
the mask keeps nothing. -/
def buildTrailSelect (trail_seconds : ℚ) (ts : List ℚ) : Except String (List ℚ) :=
  match ts with
  | [] => Except.error "empty lap"
  | t0 :: _ =>
      let t_max := colMax (ts.map (fun t => t - t0))
      if t_max ≤ 0 then Except.error "non-positive lap duration"
      else
        let trail := ts.filter (fun t => decide (t_max - trail_seconds ≤ t - t0))
        if trail.isEmpty then Except.ok (tailRows 50 ts) else Except.ok trail

/-- The lap duration `t_max` of `build_trail_for_car`: maximum of the
relative times from the lap's first row. -/
def lapRelMax (ts : List ℚ) : ℚ := colMax (ts.map (fun t => t - ts.headI))

/-! ## src/processing/time_alignment.py — race-start detection

`detect_race_start` (lines 7-62).  A row of the vehicle signal table carries
a timestamp (seconds), the lapdist channel and the speed channel. -/

/-- One row of the vehicle signal table, as consumed by `detect_race_start`. -/
structure SignalRow where
  timestamp : ℚ
  lapdist : ℚ
  speed : ℚ
deriving Inhabited, DecidableEq

/-- Scan for lapdist resets: rows where `lapdist.diff() < -1000`
(lines 18-20). -/
def raceResetAux (prev : ℚ) (i : ℕ) : List SignalRow → List ℕ
  | [] => []
  | r :: rest =>
      if decide (r.lapdist - prev < -1000) then i :: raceResetAux r.lapdist (i + 1) rest
      else raceResetAux r.lapdist (i + 1) rest

/-- Row indices of lapdist resets, in increasing order. -/
def raceResetIndices : List SignalRow → List ℕ
  | [] => []
  | r :: rest => raceResetAux r.lapdist 1 rest

/-- Timestamp of row `i`. -/
def rowTimestamp (rows : List SignalRow) (i : ℕ) : ℚ :=
  (rows.getD i default).timestamp

/-- Lines 36-45: a timestamp `w` starts a satisfied 3-second moving window
when the rows falling in `[w, w + 3)` are nonempty and all have
`speed > 20`. -/
def isMovingWindowStart (rows : List SignalRow) (w : ℚ) : Bool :=
  let window := rows.filter (fun r => decide (w ≤ r.timestamp) && decide (r.timestamp < w + 3))
  !window.isEmpty && window.all (fun r => decide (20 < r.speed))

/-- The list of satisfied moving-window start timestamps, in row order. -/
def movingWindowStarts (rows : List SignalRow) : List ℚ :=
  (rows.filter (fun r => isMovingWindowStart rows r.timestamp)).map (fun r => r.timestamp)

/-- Reset `i` occurs at or after some satisfied moving-window start
(the inner loop of lines 50-54). -/
def windowOkB (rows : List SignalRow) (i : ℕ) : Bool :=
  (movingWindowStarts rows).any (fun w => decide (w ≤ rowTimestamp rows i))

/-- Speed at the reset row exceeds the motion threshold (lines 57-58). -/
def speedOkB (rows : List SignalRow) (i : ℕ) : Bool :=
  decide (20 < (rows.getD i default).speed)

/-- Model of `detect_race_start`: no resets → first timestamp; otherwise the
first reset at or after a satisfied moving window, else the first reset with
speed above threshold, else the first reset. -/
def detect_race_start (rows : List SignalRow) : ℚ :=
  let resets := raceResetIndices rows
  if resets.isEmpty then rows.headI.timestamp
  else
    match resets.find? (fun i => windowOkB rows i) with
    | some i => rowTimestamp rows i
    | none =>
        match resets.find? (fun i => speedOkB rows i) with
        | some i => rowTimestamp rows i
        | none => rowTimestamp rows resets.headI

/-! ## src/app/world_model.py — race order

`WorldModel.get_race_order` (lines 897-959).  A car's state at the queried
time is its lap number and lapdist; car ids are modelled as naturals. -/

/-- The per-car state fields that race ordering consumes. -/
structure CarState where
  lap : ℤ
  lapdist : ℚ
deriving Inhabited, DecidableEq

/-- Descending comparison on the Python sort key
`(state.lap, state.lapdist, car_id)`: `keyGE a b` holds when `a` may come
before `b` in the `reverse=True` sorted order. -/
def keyGE (a b : ℕ × CarState) : Bool :=
  decide (b.2.lap < a.2.lap) ||
    (decide (a.2.lap = b.2.lap) &&
      (decide (b.2.lapdist < a.2.lapdist) ||
        (decide (a.2.lapdist = b.2.lapdist) && decide (b.1 ≤ a.1))))

/-- One entry of the returned `cars` map. -/
structure RaceEntry where
  carId : ℕ
  position : ℕ
  lap : ℤ
  lapdist : ℚ
  is_leader : Bool
  on_lead_lap : Bool
  laps_down : ℤ
deriving Inhabited, DecidableEq

/-- Model of `get_race_order`: empty input short-circuits; otherwise sort
descending by `(lap, lapdist, car_id)`, rank, clamp `laps_down` at zero and
derive `on_lead_lap`. -/
def get_race_order (states : List (ℕ × CarState)) : Option ℕ × List RaceEntry :=
  if states.isEmpty then (none, [])
  else
    let sorted := states.mergeSort keyGE
    let leader := sorted.headI
    let entries := sorted.enum.map (fun p =>
      let lapDelta0 := leader.2.lap - p.2.2.lap
      let lapDelta := if lapDelta0 < 0 then 0 else lapDelta0
      let lapsDown := max 0 lapDelta
      ({ carId := p.2.1, position := p.1 + 1, lap := p.2.2.lap,
         lapdist := p.2.2.lapdist,
         is_leader := decide (p.2.1 = leader.1),
         on_lead_lap := decide (lapsDown = 0),
         laps_down := lapsDown } : RaceEntry))
    (some leader.1, entries)

/-! ## src/processing/section_compare_processing.py — ideal speed, lap time
and sectors

`compute_ideal_speed_and_sectors` (lines 620-682).  A canonical-line row
carries the columns this function consumes: `dist_m`, `curvature`,
`ref_speed_ms`. -/

/-- One canonical-line row, restricted to the columns consumed by
`compute_ideal_speed_and_sectors`. -/
structure CanonRow where
  dist_m : ℚ
  curvature : ℚ
  ref_speed_ms : ℚ
deriving Inhabited, DecidableEq

/-- Lines 628-630: `max_curv = curv.max() if curv.max() > 0 else 1.0`. -/
def curvMaxGuard (rows : List CanonRow) : ℚ :=
  let mc := colMax (rows.map (fun r => r.curvature))
  if 0 < mc then mc else 1

/-- Lines 632-634: `ideal = clip(ref * (1 - 0.55 * curv/max_curv), 15, None)`. -/
def idealSpeeds (rows : List CanonRow) : List ℚ :=
  rows.map (fun r =>
    max (r.ref_speed_ms * (1 - (11/20) * (r.curvature / curvMaxGuard rows))) 15)

/-- Model of `np.diff(s, prepend=s[0])`: first entry 0, then the
consecutive differences. -/
def dsPrepend (s : List ℚ) : List ℚ :=
  match s with
  | [] => []
  | a :: rest => List.zipWith (fun x y => x - y) (a :: rest) (a :: a :: rest)

/-- Lines 639-643: `ideal_time_s = cumsum(ds / ideal_speed_ms)`. -/
def idealTimes (rows : List CanonRow) : List ℚ :=
  cumsum (List.zipWith (fun d v => d / v)
    (dsPrepend (rows.map (fun r => r.dist_m))) (idealSpeeds rows))

/-- Line 648: `total_dist = float(s[-1])`. -/
def trackLength (rows : List CanonRow) : ℚ :=
  (rows.map (fun r => r.dist_m)).getLastI

/-- Line 645: `ideal_lap_time_s = float(ideal_time_s[-1])`. -/
def idealLapTime (rows : List CanonRow) : ℚ :=
  (idealTimes rows).getLastI

/-- Line 649: `sector_edges = np.linspace(0, total_dist, n_sectors + 1)`,
whose `i`-th entry is exactly `total_dist * i / n_sectors`. -/
def sectorEdge (L : ℚ) (n i : ℕ) : ℚ := L * i / n

/-- The recorded `start_dist_m` of sector `i` (0-based). -/
def sectorStart (rows : List CanonRow) (n i : ℕ) : ℚ :=
  sectorEdge (trackLength rows) n i

/-- The recorded `end_dist_m` of sector `i` (0-based). -/
def sectorEnd (rows : List CanonRow) (n i : ℕ) : ℚ :=
  sectorEdge (trackLength rows) n (i + 1)

/-- Lines 656-659: the sector-membership mask — half-open `[start, end)` for
all but the last sector, closed `[start, end]` for the last. -/
def inSector (L : ℚ) (n i : ℕ) (x : ℚ) : Bool :=
  if i + 1 < n then decide (sectorEdge L n i ≤ x) && decide (x < sectorEdge L n (i + 1))
  else decide (sectorEdge L n i ≤ x) && decide (x ≤ sectorEdge L n (i + 1))

/-- Difference between the last and first entries of a masked column
(0 when the mask selects nothing), lines 661-666. -/
def spanI (l : List ℚ) : ℚ := if l.isEmpty then 0 else l.getLastI - l.headI

/-- The `(dist_m, ideal_time_s)` pairs of the canonical line, in row
order. -/
def sectorPairs (rows : List CanonRow) : List (ℚ × ℚ) :=
  (rows.map (fun r => r.dist_m)).zip (idealTimes rows)

/-- Lines 661-666: sector `i`'s ideal time,
`ideal_time_s[mask][-1] - ideal_time_s[mask][0]`. -/
def sectorTime (rows : List CanonRow) (n i : ℕ) : ℚ :=
  spanI (((sectorPairs rows).filter
    (fun p => inSector (trackLength rows) n i p.1)).map Prod.snd)

/-- The sum of the per-sector ideal times (line 675). -/
def sectorSum (rows : List CanonRow) (n : ℕ) : ℚ :=
  ((List.range n).map (fun i => sectorTime rows n i)).sum

/-! ## src/processing/section_compare_processing.py — canonical line distance

`compute_canonical_line_and_curvature` (lines 507-559): stack the filtered
per-car median lines, take the pointwise median, and accumulate arc length
with a zero first step.  Coordinates are machine floats (rationals);
displacement norms live in ℝ via `Real.sqrt`. -/

/-- Model of `np.median` of a one-dimensional array: middle element of the
sorted values, or the mean of the two middle elements for even length. -/
def npMedian (l : List ℚ) : ℚ :=
  let s := l.mergeSort (fun a b => decide (a ≤ b))
  if s.length % 2 = 1 then s.getD (s.length / 2) 0
  else (s.getD (s.length / 2 - 1) 0 + s.getD (s.length / 2) 0) / 2

/-- Lines 515-521: `canonical_xy = np.median(median_stack, axis=0)` — the
pointwise median across the stacked per-car median lines. -/
def canonicalXY (cars : List (List (ℚ × ℚ))) : List (ℚ × ℚ) :=
  (List.range cars.headI.length).map (fun j =>
    (npMedian (cars.map (fun c => (c.getD j (0, 0)).1)),
     npMedian (cars.map (fun c => (c.getD j (0, 0)).2))))

/-- Lines 525-527: displacement norms along the canonical points with
`prepend` duplicating the first point, so the first step is 0. -/
noncomputable def canonicalDs (xy : List (ℚ × ℚ)) : List ℝ :=
  match xy with
  | [] => []
  | a :: rest =>
      List.zipWith (fun p q : ℚ × ℚ =>
        Real.sqrt (((p.1 : ℝ) - (q.1 : ℝ)) ^ 2 + ((p.2 : ℝ) - (q.2 : ℝ)) ^ 2))
        (a :: rest) (a :: a :: rest)

/-- Cumulative sum over ℝ with an explicit accumulator. -/
noncomputable def cumsumRFrom (acc : ℝ) : List ℝ → List ℝ
  | [] => []
  | a :: rest => (acc + a) :: cumsumRFrom (acc + a) rest

/-- Line 528: `s_canon = canonical_ds.cumsum()`, the `dist_m` column. -/
noncomputable def canonicalDist (xy : List (ℚ × ℚ)) : List ℝ :=
  cumsumRFrom 0 (canonicalDs xy)

/-- Line 530: `track_length_m = float(s_canon[-1])`. -/
noncomputable def trackLengthR (xy : List (ℚ × ℚ)) : ℝ :=
  (canonicalDist xy).getLastI

/-! ## src/app/world_model.py — deviation query

`WorldModel.compute_deviation` (lines 803-888), after the reference line and
its spatial index have been selected: nearest-point query, local tangent,
left normal, signed deviation. -/

/-- Squared euclidean distance, the quantity a k-d tree nearest query
minimises. -/
noncomputable def sqDist (p q : ℝ × ℝ) : ℝ := (p.1 - q.1) ^ 2 + (p.2 - q.2) ^ 2

/-- Running nearest-point scan: `bi`/`bd` are the best index and its squared
distance, `i` the index of the head of the remaining list. -/
noncomputable def nearestIdxAux (q : ℝ × ℝ) : ℕ → ℝ → ℕ → List (ℝ × ℝ) → ℕ
  | bi, _, _, [] => bi
  | bi, bd, i, p :: rest =>
      if sqDist p q < bd then nearestIdxAux q i (sqDist p q) (i + 1) rest
      else nearestIdxAux q bi bd (i + 1) rest

/-- Index of a nearest line point to the query, modelling
`tree.query([cx, cy], k=1)`. -/
noncomputable def nearestIdx (line : List (ℝ × ℝ)) (q : ℝ × ℝ) : ℕ :=
  match line with
  | [] => 0
  | p :: rest => nearestIdxAux q 0 (sqDist p q) 1 rest

/-- Lines 848-884: nearest point, tangent (next point, or previous at the
line's end), normalisation guarded by `tlen > 0`, left normal, signed
deviation; returns `(deviation, ideal_x, ideal_y)`. -/
noncomputable def compute_deviation (line : List (ℝ × ℝ)) (c : ℝ × ℝ) : ℝ × ℝ × ℝ :=
  let idx := nearestIdx line c
  let ideal := line.getD idx (0, 0)
  let pair := if idx < line.length - 1
    then (line.getD idx (0, 0), line.getD (idx + 1) (0, 0))
    else (line.getD (idx - 1) (0, 0), line.getD idx (0, 0))
  let tx := pair.2.1 - pair.1.1
  let ty := pair.2.2 - pair.1.2
  let tlen := Real.sqrt (tx ^ 2 + ty ^ 2)
  let t2 := if 0 < tlen then (tx / tlen, ty / tlen) else (tx, ty)
  ((c.1 - ideal.1) * (-t2.2) + (c.2 - ideal.2) * t2.1, ideal.1, ideal.2)

/-- The deviation formula as the spec words it: dot product of
`car_position - nearest_point` with the 90°-rotated normalized local
tangent (division by a zero norm following the Lean convention). -/
noncomputable def deviationSpec (line : List (ℝ × ℝ)) (c : ℝ × ℝ) : ℝ :=
  let idx := nearestIdx line c
  let ideal := line.getD idx (0, 0)
  let pair := if idx < line.length - 1
    then (line.getD idx (0, 0), line.getD (idx + 1) (0, 0))
    else (line.getD (idx - 1) (0, 0), line.getD idx (0, 0))
  let tx := pair.2.1 - pair.1.1
  let ty := pair.2.2 - pair.1.2
  let tlen := Real.sqrt (tx ^ 2 + ty ^ 2)
  (c.1 - ideal.1) * (-(ty / tlen)) + (c.2 - ideal.2) * (tx / tlen)

/-! ## src/processing/generate_racing_line.py — global racing line

`filter_main_track_points` (lines 9-146) and `compute_racing_line`
(lines 149-286).  A trajectory row carries the `[x, y, speed, lapdist]`
columns the builder reads. -/

/-- Minimum of a nonempty column, modelling `np.ndarray.min`. -/
def colMin : List ℚ → ℚ
  | [] => 0
  | a :: rest => rest.foldl min a

/-- One trajectory row as read by the racing-line builder
(`traj[:, 0..3] = x, y, speed, lapdist`). -/
structure TrajSample where
  x : ℚ
  y : ℚ
  speed : ℚ
  lapdist : ℚ
deriving Inhabited, DecidableEq

/-- One collected sample `(norm_lapdist, x, y, speed)`. -/
structure RLPoint where
  norm_lapdist : ℚ
  x : ℚ
  y : ℚ
  speed : ℚ
deriving Inhabited, DecidableEq

/-- Model of `np.digitize(v, np.linspace(0, 1, nbins + 1)) - 1` followed by
`np.clip(·, 0, nbins - 1)`: `np.digitize` counts the edges `k / nbins` that
are `≤ v`; truncated subtraction realises the lower clip. -/
def binIndex (nbins : ℕ) (v : ℚ) : ℕ :=
  let cnt := ((List.range (nbins + 1)).filter
    (fun k => decide ((k : ℚ) / (nbins : ℚ) ≤ v))).length
  min (cnt - 1) (nbins - 1)

/-- Model of `np.mean` (junk 0 on the empty list). -/
def qMean (l : List ℚ) : ℚ := l.sum / (l.length : ℚ)

/-- Model of `np.var` (population variance, `ddof = 0`). -/
def qVar (l : List ℚ) : ℚ := qMean (l.map (fun v => (v - qMean l) ^ 2))

/-- Lines 168-187: normalize one car's lapdist to `[0, 1]` with its own
min/max and tag every `(norm_lapdist, x, y, speed)` sample; a car whose
lapdist range is below 100 contributes nothing. -/
def collectCarPoints (traj : List TrajSample) : List RLPoint :=
  let ldMin := colMin (traj.map (fun s => s.lapdist))
  let ldRange := colMax (traj.map (fun s => s.lapdist)) - ldMin
  if ldRange < 100 then []
  else traj.map (fun s => ⟨(s.lapdist - ldMin) / ldRange, s.x, s.y, s.speed⟩)

/-- The collection loop of `compute_racing_line` over all cars. -/
def collectPoints (trajs : List (List TrajSample)) : List RLPoint :=
  (trajs.map collectCarPoints).flatten

/-- Rule 2 of `filter_main_track_points` (lines 44-84), pointwise: a point
in a coarse bin holding fewer than 3 points is kept; otherwise it is kept
iff its distance to the bin's median centre is at most 20 m. -/
noncomputable def binMedianKeep (pts : List RLPoint) (p : RLPoint) : Bool :=
  let binPts := pts.filter
    (fun q => decide (binIndex 100 q.norm_lapdist = binIndex 100 p.norm_lapdist))
  if binPts.length < 3 then true
  else decide (Real.sqrt
    ((((p.x - npMedian (binPts.map (fun q => q.x))) : ℚ) : ℝ) ^ 2 +
      (((p.y - npMedian (binPts.map (fun q => q.y))) : ℚ) : ℝ) ^ 2) ≤ 20)

/-- Rule 3 of `filter_main_track_points` (lines 96-135): a 50-bin window
with at least 10 points, mean speed below 15 and spatial spread above 30 is
a pit-lane window. -/
noncomputable def pitWindowB (pts : List RLPoint) (i : ℕ) : Bool :=
  let ws := pts.filter (fun q => decide (binIndex 50 q.norm_lapdist = i))
  decide (10 ≤ ws.length) &&
    decide (qMean (ws.map (fun q => q.speed)) < 15) &&
    decide ((30 : ℝ) <
      Real.sqrt (((qVar (ws.map (fun q => q.x)) + qVar (ws.map (fun q => q.y))) : ℚ) : ℝ))

/-- `filter_main_track_points` (lines 9-146): speed threshold, per-bin
median deviation, pit-window removal, with the early returns on emptiness. -/
noncomputable def filter_main_track_points (points : List RLPoint) : List RLPoint :=
  if points.isEmpty then points
  else
    let f1 := points.filter (fun p => decide (8 ≤ p.speed))
    if f1.isEmpty then f1
    else
      let f2 := f1.filter (binMedianKeep f1)
      if f2.isEmpty then f2
      else f2.filter (fun p => ! pitWindowB f2 (binIndex 50 p.norm_lapdist))

/-- Model of `np.interp` over an ascending sample list (clamped at both
ends). -/
def npInterp : List (ℚ × ℚ) → ℚ → ℚ
  | [], _ => 0
  | [(_, y0)], _ => y0
  | (x0, y0) :: (x1, y1) :: rest, v =>
      if v ≤ x0 then y0
      else if v ≤ x1 then y0 + (y1 - y0) * (v - x0) / (x1 - x0)
      else npInterp ((x1, y1) :: rest) v

/-- The `(index, coordinate)` samples of the non-NaN bins. -/
def validCoords (line : List (Option (ℚ × ℚ))) (f : ℚ × ℚ → ℚ) : List (ℚ × ℚ) :=
  line.enum.filterMap (fun p => match p.2 with
    | some v => some ((p.1 : ℚ), f v)
    | none => none)

/-- Lines 257-263: interpolate empty bins by 1D linear interpolation over
the bin index. -/
def interpolateGaps (n : ℕ) (line : List (Option (ℚ × ℚ))) : List (ℚ × ℚ) :=
  (List.range n).map (fun i =>
    (npInterp (validCoords line (fun v => v.1)) (i : ℚ),
     npInterp (validCoords line (fun v => v.2)) (i : ℚ)))

/-- Python-style wrap-around index `k % n`. -/
def wrapIdx (n : ℕ) (k : ℤ) : ℕ := (k % (n : ℤ)).toNat

/-- One truncated-Gaussian kernel weight (`scipy.ndimage.gaussian_filter1d`,
`truncate = 4`, radius `int(truncate * sigma + 0.5)`). -/
noncomputable def gaussWeight (σ : ℝ) (r j : ℕ) : ℝ :=
  Real.exp (-(((j : ℝ) - (r : ℝ)) ^ 2) / (2 * σ ^ 2))

/-- Lines 265-271: periodic Gaussian smoothing (`mode='wrap'`) of both
coordinates with a normalised truncated kernel. -/
noncomputable def gaussianSmoothWrap (σ : ℝ) (r : ℕ) (pts : List (ℚ × ℚ)) : List (ℝ × ℝ) :=
  let n := pts.length
  let wsum := ((List.range (2 * r + 1)).map (gaussWeight σ r)).sum
  (List.range n).map (fun i =>
    (((List.range (2 * r + 1)).map (fun j => gaussWeight σ r j *
        (((pts.getD (wrapIdx n ((i : ℤ) + (j : ℤ) - (r : ℤ))) (0, 0)).1 : ℝ)))).sum / wsum,
     ((List.range (2 * r + 1)).map (fun j => gaussWeight σ r j *
        (((pts.getD (wrapIdx n ((i : ℤ) + (j : ℤ) - (r : ℤ))) (0, 0)).2 : ℝ)))).sum / wsum))

/-- `compute_racing_line` (lines 149-286): collect and normalize samples,
pit-filter them, bin to `n_points` medians (`none` = empty bin), remove
both endpoints of any edge longer than 15 m, raise iff no valid bin
remains, else interpolate gaps and smooth.  An all-filtered input returns
the all-zeros placeholder line, not an error. -/
noncomputable def compute_racing_line (trajs : List (List TrajSample)) (n_points : ℕ) :
    Except String (List (ℝ × ℝ)) :=
  let all_points := collectPoints trajs
  if all_points.isEmpty then Except.ok (List.replicate n_points ((0 : ℝ), (0 : ℝ)))
  else
    let filtered := filter_main_track_points all_points
    if filtered.isEmpty then Except.ok (List.replicate n_points ((0 : ℝ), (0 : ℝ)))
    else
      let line0 : List (Option (ℚ × ℚ)) := (List.range n_points).map (fun i =>
        let binPts := filtered.filter (fun p => decide (binIndex n_points p.norm_lapdist = i))
        if binPts.isEmpty then none
        else some (npMedian (binPts.map (fun p => p.x)), npMedian (binPts.map (fun p => p.y))))
      let distF : ℕ → ℝ := fun i =>
        match line0.getD i none, line0.getD ((i + 1) % n_points) none with
        | some p, some q =>
            Real.sqrt (((q.1 - p.1 : ℚ) : ℝ) ^ 2 + ((q.2 - p.2 : ℚ) : ℝ) ^ 2)
        | _, _ => 0
      let line1 : List (Option (ℚ × ℚ)) := (List.range n_points).map (fun i =>
        match line0.getD i none with
        | none => none
        | some p =>
            if 15 < distF (wrapIdx n_points ((i : ℤ) - 1)) ∨ 15 < distF i then none
            else some p)
      if (line1.filter (fun o => o.isSome)).length = 0 then
        Except.error "No valid points in any bin - cannot compute racing line"
      else
        Except.ok (gaussianSmoothWrap 2 8 (interpolateGaps n_points line1))

/-! ## Theorems -/

lemma repairStep_le (maxdiff prev cur : ℚ) (h : 0 ≤ maxdiff) :
    prev ≤ repairStep maxdiff prev cur ∧ repairStep maxdiff prev cur - prev ≤ maxdiff := by
  simp only [repairStep]
  split_ifs with h1 h2 h3 <;> constructor <;> linarith

lemma repairFrom_chain (maxdiff : ℚ) (h : 0 ≤ maxdiff) :
    ∀ (rest : List ℚ) (prev : ℚ),
      List.Chain (RepairedStep maxdiff) prev (repairFrom maxdiff prev rest)
  | [], _ => List.Chain.nil
  | c :: rs, prev => by
      rw [repairFrom]
      exact List.Chain.cons
        ⟨(repairStep_le maxdiff prev c h).1, (repairStep_le maxdiff prev c h).2⟩
        (repairFrom_chain maxdiff h rs (repairStep maxdiff prev c))

lemma repairSegment_chain (maxdiff : ℚ) (h : 0 ≤ maxdiff) (seg : List ℚ) :
    List.Chain' (RepairedStep maxdiff) (repairSegment maxdiff seg) := by
  cases seg with
  | nil => simp [repairSegment]
  | cons a rest =>
      rw [repairSegment]
      exact repairFrom_chain maxdiff h rest a

/-- C3: within each detected lap segment, the repaired lapdist column is
non-decreasing and no adjacent-sample increase exceeds
`max_slope * dt = 120 * 0.01`. -/
theorem repaired_lapdist_monotone_and_slope_bounded
    (l seg : List ℚ) (hseg : seg ∈ segmentsOf l) :
    List.Chain' (RepairedStep (120 * (1/100))) (repairSegment (120 * (1/100)) seg) :=
  repairSegment_chain _ (by norm_num) seg

lemma mem_resetIndicesAux (i : ℕ) :
    ∀ (rest : List ℚ) (prev : ℚ) (k : ℕ),
      i ∈ resetIndicesAux prev k rest ↔
        (k ≤ i ∧ i - k < rest.length ∧
          isLapReset ((prev :: rest).getD (i - k) 0) (rest.getD (i - k) 0) = true)
  | [], prev, k => by simp [resetIndicesAux]
  | c :: rs, prev, k => by
      rw [resetIndicesAux]
      have IH := mem_resetIndicesAux i rs c (k + 1)
      by_cases hr : isLapReset prev c
      · rw [if_pos hr, List.mem_cons, IH]
        constructor
        · rintro (rfl | ⟨h1, h2, h3⟩)
          · exact ⟨le_refl _, by simp, by simpa using hr⟩
          · refine ⟨by omega, by simp only [List.length_cons]; omega, ?_⟩
            obtain ⟨m, hm⟩ : ∃ m, i - k = m + 1 := ⟨i - (k + 1), by omega⟩
            rw [hm, List.getD_cons_succ, List.getD_cons_succ]
            have hmi : m = i - (k + 1) := by omega
            rw [hmi]
            exact h3
        · rintro ⟨h1, h2, h3⟩
          by_cases hik : i = k
          · exact Or.inl hik
          · refine Or.inr ⟨by omega, by simp only [List.length_cons] at h2; omega, ?_⟩
            obtain ⟨m, hm⟩ : ∃ m, i - k = m + 1 := ⟨i - (k + 1), by omega⟩
            rw [hm, List.getD_cons_succ, List.getD_cons_succ] at h3
            have hmi : i - (k + 1) = m := by omega
            rw [hmi]
            exact h3
      · rw [if_neg hr, IH]
        constructor
        · rintro ⟨h1, h2, h3⟩
          refine ⟨by omega, by simp only [List.length_cons]; omega, ?_⟩
          obtain ⟨m, hm⟩ : ∃ m, i - k = m + 1 := ⟨i - (k + 1), by omega⟩
          rw [hm, List.getD_cons_succ, List.getD_cons_succ]
          have hmi : m = i - (k + 1) := by omega
          rw [hmi]
          exact h3
        · rintro ⟨h1, h2, h3⟩
          by_cases hik : i = k
          · subst hik
            simp only [Nat.sub_self, List.getD_cons_zero] at h3
            exact absurd h3 hr
          · refine ⟨by omega, by simp only [List.length_cons] at h2; omega, ?_⟩
            obtain ⟨m, hm⟩ : ∃ m, i - k = m + 1 := ⟨i - (k + 1), by omega⟩
            rw [hm, List.getD_cons_succ, List.getD_cons_succ] at h3
            have hmi : i - (k + 1) = m := by omega
            rw [hmi]
            exact h3

/-- C5: index `i ≥ 1` starts a new lap segment iff
`lapdist[i] < lapdist[i-1] - 100` and `lapdist[i] < 500`; and a concrete
single-sample drop of 900 that lands exactly at 500 (not below it) detects
no reset, leaving a single lap segment. -/
theorem lap_reset_iff_drop_gt100_landing_below500 :
    (∀ (l : List ℚ) (i : ℕ), i ∈ resetIndices l ↔
        (1 ≤ i ∧ i < l.length ∧
          l.getD i 0 < l.getD (i - 1) 0 - 100 ∧ l.getD i 0 < 500)) ∧
    resetIndices [1400, 500, 510] = [] ∧
    segmentsOf [1400, 500, 510] = [[1400, 500, 510]] := by
  refine ⟨fun l i => ?_, by norm_num [resetIndices, resetIndicesAux, isLapReset],
    by norm_num [segmentsOf, isLapReset]⟩
  cases l with
  | nil => simp [resetIndices]
  | cons a rest =>
      rw [resetIndices, mem_resetIndicesAux]
      constructor
      · rintro ⟨h1, h2, h3⟩
        obtain ⟨m, hm⟩ : ∃ m, i = m + 1 := ⟨i - 1, by omega⟩
        subst hm
        simp only [Nat.add_sub_cancel] at h3 ⊢
        rw [List.getD_cons_succ]
        simp only [isLapReset, Bool.and_eq_true, decide_eq_true_eq] at h3
        exact ⟨by omega, by simp only [List.length_cons]; omega, h3.1, h3.2⟩
      · rintro ⟨h1, h2, h3, h4⟩
        obtain ⟨m, hm⟩ : ∃ m, i = m + 1 := ⟨i - 1, by omega⟩
        subst hm
        simp only [Nat.add_sub_cancel] at h3 ⊢
        rw [List.getD_cons_succ] at h3 h4
        refine ⟨by omega, by simp only [List.length_cons] at h2; omega, ?_⟩
        simp only [isLapReset, Bool.and_eq_true, decide_eq_true_eq]
        exact ⟨h3, h4⟩

lemma le_foldlMax : ∀ (l : List ℚ) (a : ℚ), a ≤ l.foldl max a
  | [], _ => le_refl _
  | c :: rs, a => le_trans (le_max_left a c) (le_foldlMax rs (max a c))

lemma mem_le_foldlMax : ∀ (l : List ℚ) (a x : ℚ), x ∈ l → x ≤ l.foldl max a
  | c :: rs, a, x, hx => by
      rcases List.mem_cons.mp hx with rfl | hx
      · exact le_trans (le_max_right a x) (le_foldlMax rs (max a x))
      · exact mem_le_foldlMax rs (max a c) x hx

lemma mem_le_colMax (l : List ℚ) (x : ℚ) (hx : x ∈ l) : x ≤ colMax l := by
  cases l with
  | nil => cases hx
  | cons a rest =>
      rcases List.mem_cons.mp hx with rfl | hx
      · exact le_foldlMax rest x
      · exact mem_le_foldlMax rest a x hx

lemma foldlMax_mem : ∀ (l : List ℚ) (a : ℚ), l.foldl max a = a ∨ l.foldl max a ∈ l
  | [], a => Or.inl rfl
  | c :: rs, a => by
      rcases foldlMax_mem rs (max a c) with h | h
      · rcases max_choice a c with hm | hm
        · exact Or.inl (by rw [List.foldl, h, hm])
        · exact Or.inr (by rw [List.foldl, h, hm]; exact List.mem_cons_self c rs)
      · exact Or.inr (List.mem_cons_of_mem c h)

lemma colMax_mem (l : List ℚ) (h : l ≠ []) : colMax l ∈ l := by
  cases l with
  | nil => exact absurd rfl h
  | cons a rest =>
      rcases foldlMax_mem rest a with h | h
      · rw [colMax, h]; exact List.mem_cons_self a rest
      · exact List.mem_cons_of_mem a h

lemma sorted_head_le (a : ℚ) (rest : List ℚ) (x : ℚ)
    (hs : List.Chain' (· ≤ ·) (a :: rest)) (hx : x ∈ a :: rest) : a ≤ x := by
  rcases List.mem_cons.mp hx with rfl | hx
  · exact le_refl x
  · exact List.rel_of_pairwise_cons (List.chain'_iff_pairwise.mp hs) hx

lemma colMax_map_div (l : List ℚ) (m : ℚ) (hm : 0 < m) (h : l ≠ []) :
    colMax (l.map (· / m)) = colMax l / m := by
  cases l with
  | nil => exact absurd rfl h
  | cons a rest =>
      rw [List.map_cons, colMax, colMax]
      clear h
      induction rest generalizing a with
      | nil => rfl
      | cons c rs ih =>
          rw [List.map_cons, List.foldl, List.foldl, max_div_div_right hm.le a c, ih]

/-- C9: each brake column is rescaled by its own positive maximum, producing
a column with maximum exactly 1 and no entry above 1; a column whose maximum
is not positive is left unchanged. -/
theorem brake_columns_rescaled_to_unit_max (l : List ℚ) (h : l ≠ []) :
    (0 < colMax l →
        colMax (normalizeBrakeColumn l) = 1 ∧ ∀ x ∈ normalizeBrakeColumn l, x ≤ 1) ∧
    (¬ 0 < colMax l → normalizeBrakeColumn l = l) := by
  constructor
  · intro hpos
    rw [normalizeBrakeColumn, if_pos hpos]
    refine ⟨by rw [colMax_map_div l (colMax l) hpos h, div_self (ne_of_gt hpos)], ?_⟩
    intro x hx
    obtain ⟨y, hy, rfl⟩ := List.mem_map.mp hx
    exact (div_le_one hpos).mpr (mem_le_colMax l y hy)
  · intro hneg
    rw [normalizeBrakeColumn, if_neg hneg]

/-- C9 witness: a concrete brake column with positive maximum 2 is rescaled
to maximum 1. -/
theorem brake_columns_rescaled_to_unit_max_witness :
    (0 : ℚ) < colMax [2, 1] ∧
      colMax (normalizeBrakeColumn [2, 1]) = 1 ∧
      ∀ x ∈ normalizeBrakeColumn [2, 1], x ≤ 1 :=
  ⟨by norm_num [colMax, max_def],
    (brake_columns_rescaled_to_unit_max [2, 1] (by simp)).1
      (by norm_num [colMax, max_def])⟩

lemma trail_filter_of_pos (w : ℚ) (t0 : ℚ) (rest : List ℚ) (hw : 0 < w)
    (hdur : ¬ lapRelMax (t0 :: rest) ≤ 0) :
    buildTrailSelect w (t0 :: rest) =
      Except.ok ((t0 :: rest).filter
        (fun t => decide (lapRelMax (t0 :: rest) - w ≤ t - t0))) := by
  have hmax : lapRelMax (t0 :: rest) =
      colMax ((t0 :: rest).map (fun t => t - t0)) := by
    rw [lapRelMax, List.headI]
  rw [buildTrailSelect]
  rw [← hmax]
  rw [if_neg hdur]
  have hmem : ∃ t ∈ t0 :: rest, t - t0 = lapRelMax (t0 :: rest) := by
    have hne : ((t0 :: rest).map (fun t => t - t0)) ≠ [] := by simp
    have := colMax_mem _ hne
    rw [← hmax] at this
    obtain ⟨t, ht, hteq⟩ := List.mem_map.mp this
    exact ⟨t, ht, hteq⟩
  obtain ⟨t, ht, hteq⟩ := hmem
  have hkeep : t ∈ (t0 :: rest).filter
      (fun t => decide (lapRelMax (t0 :: rest) - w ≤ t - t0)) := by
    rw [List.mem_filter]
    exact ⟨ht, by rw [decide_eq_true_eq, hteq]; linarith⟩
  have hne2 : ((t0 :: rest).filter
      (fun t => decide (lapRelMax (t0 :: rest) - w ≤ t - t0))).isEmpty = false := by
    rcases List.isEmpty_iff.mp.mt (fun he => (List.ne_nil_of_mem hkeep) he) with h
    exact Bool.eq_false_iff.mpr (fun hb => (List.ne_nil_of_mem hkeep) (List.isEmpty_iff.mp hb))
  rw [if_neg (by rw [hne2]; exact Bool.false_ne_true)]

lemma trail_short_keeps_all (w : ℚ) (ts : List ℚ) (hw : 0 < w)
    (hsort : List.Chain' (· ≤ ·) ts) (hdur : ¬ lapRelMax ts ≤ 0)
    (hshort : lapRelMax ts ≤ w) : buildTrailSelect w ts = Except.ok ts := by
  cases ts with
  | nil => rw [lapRelMax] at hdur; simp [colMax] at hdur
  | cons t0 rest =>
      rw [trail_filter_of_pos w t0 rest hw hdur]
      have hall : (t0 :: rest).filter
          (fun t => decide (lapRelMax (t0 :: rest) - w ≤ t - t0)) = t0 :: rest := by
        rw [List.filter_eq_self]
        intro t ht
        rw [decide_eq_true_eq]
        have h0 : t0 ≤ t := sorted_head_le t0 rest t hsort ht
        linarith
      rw [hall]

/-- C8 amended: for a lap with positive duration the trail is exactly the
rows whose relative time lies in the trailing `trail_seconds` window; the
window always retains the row attaining the maximal relative time, so the
last-50-rows fallback never fires, and a lap shorter than the window yields
the whole lap (not its last 50 rows). -/
theorem trail_is_trailing_window_and_short_lap_keeps_all
    (w : ℚ) (ts : List ℚ) (hw : 0 < w)
    (hsort : List.Chain' (· ≤ ·) ts) (hdur : ¬ lapRelMax ts ≤ 0) :
    buildTrailSelect w ts =
      Except.ok (ts.filter (fun t => decide (lapRelMax ts - w ≤ t - ts.headI))) ∧
    (lapRelMax ts ≤ w → buildTrailSelect w ts = Except.ok ts) := by
  cases ts with
  | nil => rw [lapRelMax] at hdur; simp [colMax] at hdur
  | cons t0 rest =>
      have h1 := trail_filter_of_pos w t0 rest hw hdur
      have hhead : (t0 :: rest).headI = t0 := rfl
      rw [hhead]
      exact ⟨h1, fun hshort =>
        trail_short_keeps_all w (t0 :: rest) hw hsort hdur hshort⟩

/-- C8 witness: a concrete 3-row lap of duration 2 with window 15 selects
the whole lap through the mask. -/
theorem trail_is_trailing_window_witness :
    (0 : ℚ) < 15 ∧ List.Chain' (· ≤ ·) [(0 : ℚ), 1, 2] ∧ ¬ lapRelMax [(0 : ℚ), 1, 2] ≤ 0 ∧
      buildTrailSelect 15 [(0 : ℚ), 1, 2] = Except.ok [(0 : ℚ), 1, 2] := by
  have hd : ¬ lapRelMax [(0 : ℚ), 1, 2] ≤ 0 := by
    norm_num [lapRelMax, colMax, max_def]
  refine ⟨by norm_num, by norm_num, hd, ?_⟩
  refine (trail_is_trailing_window_and_short_lap_keeps_all 15 [0, 1, 2] (by norm_num)
    (by norm_num) hd).2 ?_
  norm_num [lapRelMax, colMax, max_def]

/-- C8 counterexample: a 51-sample lap of duration 10 s (shorter than the
15 s window).  The code returns the whole 51-row lap as the trail, not the
last 50 rows the claim requires. -/
theorem trail_short_lap_counterexample :
    buildTrailSelect 15 ((List.range 51).map (fun i : ℕ => (i : ℚ) / 5)) =
        Except.ok ((List.range 51).map (fun i : ℕ => (i : ℚ) / 5)) ∧
      ((List.range 51).map (fun i : ℕ => (i : ℚ) / 5)).length = 51 ∧
      tailRows 50 ((List.range 51).map (fun i : ℕ => (i : ℚ) / 5)) ≠
        (List.range 51).map (fun i : ℕ => (i : ℚ) / 5) := by
  set lap : List ℚ := (List.range 51).map (fun i : ℕ => (i : ℚ) / 5) with hlap
  have hlen : lap.length = 51 := by rw [hlap]; simp
  have hhead : lap.headI = 0 := by
    rw [hlap, List.range_succ_eq_map]
    simp
  have hmem10 : (10 : ℚ) ∈ lap.map (fun t => t - lap.headI) := by
    rw [hhead]
    refine List.mem_map.mpr ⟨(50 : ℚ) / 5, ?_, by norm_num⟩
    rw [hlap]
    exact List.mem_map.mpr ⟨50, by simp, by norm_num⟩
  have hub : ∀ x ∈ lap.map (fun t => t - lap.headI), x ≤ 10 := by
    rw [hhead]
    intro x hx
    obtain ⟨t, ht, rfl⟩ := List.mem_map.mp hx
    rw [hlap] at ht
    obtain ⟨i, hi, rfl⟩ := List.mem_map.mp ht
    have hle : (i : ℚ) ≤ 50 := by exact_mod_cast Nat.lt_succ_iff.mp (List.mem_range.mp hi)
    rw [sub_zero]
    linarith
  have h10 : (10 : ℚ) ≤ lapRelMax lap := mem_le_colMax _ _ hmem10
  have hmaxmem : lapRelMax lap ∈ lap.map (fun t => t - lap.headI) :=
    colMax_mem _ (by rw [hlap]; simp)
  have hmax10 : lapRelMax lap ≤ 10 := hub _ hmaxmem
  have hdur : ¬ lapRelMax lap ≤ 0 := by intro h; linarith
  have hsort : List.Chain' (· ≤ ·) lap := by
    rw [hlap, List.chain'_map]
    have : List.Chain' (· ≤ ·) (List.range 51) := by
      rw [List.chain'_iff_pairwise]
      exact (List.pairwise_lt_range 51).imp le_of_lt
    refine this.imp ?_
    intro a b hab
    have : (a : ℚ) ≤ b := by exact_mod_cast hab
    linarith
  refine ⟨?_, hlen, ?_⟩
  · exact trail_short_keeps_all 15 lap (by norm_num) hsort hdur (by linarith)
  · intro h
    have := congrArg List.length h
    rw [tailRows, List.length_drop, hlen] at this
    omega

lemma raceResetAux_sorted_bounds :
    ∀ (rest : List SignalRow) (prev : ℚ) (k : ℕ),
      List.Chain' (· < ·) (raceResetAux prev k rest) ∧
        ∀ i ∈ raceResetAux prev k rest, k ≤ i ∧ i < k + rest.length
  | [], prev, k => by simp [raceResetAux]
  | r :: rs, prev, k => by
      have IH := raceResetAux_sorted_bounds rs r.lapdist (k + 1)
      rw [raceResetAux]
      by_cases hc : r.lapdist - prev < -1000
      · rw [if_pos (by simpa using hc)]
        constructor
        · refine IH.1.cons' ?_
          intro y hy
          exact (IH.2 y (List.mem_of_mem_head? hy)).1
        · intro i hi
          rcases List.mem_cons.mp hi with rfl | hi
          · simp only [List.length_cons]; omega
          · have := IH.2 i hi
            simp only [List.length_cons]; omega
      · rw [if_neg (by simpa using hc)]
        refine ⟨IH.1, fun i hi => ?_⟩
        have := IH.2 i hi
        simp only [List.length_cons]; omega

lemma raceResetIndices_sorted_bounds (rows : List SignalRow) :
    List.Chain' (· < ·) (raceResetIndices rows) ∧
      ∀ i ∈ raceResetIndices rows, 1 ≤ i ∧ i < rows.length := by
  cases rows with
  | nil => simp [raceResetIndices]
  | cons r rest =>
      have h := raceResetAux_sorted_bounds rest r.lapdist 1
      refine ⟨h.1, fun i hi => ?_⟩
      have := h.2 i hi
      simp only [List.length_cons]
      omega

lemma rowTimestamp_mono (rows : List SignalRow)
    (hsort : List.Chain' (fun a b : SignalRow => a.timestamp < b.timestamp) rows)
    (i j : ℕ) (hij : i ≤ j) (hj : j < rows.length) :
    rowTimestamp rows i ≤ rowTimestamp rows j := by
  haveI : IsTrans SignalRow fun a b : SignalRow => a.timestamp < b.timestamp :=
    ⟨fun _ _ _ h1 h2 => lt_trans h1 h2⟩
  rcases Nat.lt_or_ge i j with h | h
  · have hp := List.chain'_iff_pairwise.mp hsort
    have hi : i < rows.length := lt_trans h hj
    rw [rowTimestamp, rowTimestamp, List.getD_eq_getElem rows default hi,
      List.getD_eq_getElem rows default hj]
    exact le_of_lt (List.pairwise_iff_getElem.mp hp i j hi hj h)
  · have : i = j := le_antisymm hij h
    rw [this]

lemma find?_first_min (p : ℕ → Bool) :
    ∀ (R : List ℕ), List.Chain' (· < ·) R → ∀ (i : ℕ), R.find? p = some i →
      ∀ j ∈ R, p j = true → i ≤ j
  | [], _, i, hfind => by simp [List.find?] at hfind
  | a :: rs, hs, i, hfind => by
      rw [List.find?_cons] at hfind
      by_cases hpa : p a
      · simp only [hpa] at hfind
        injection hfind with hfind
        subst hfind
        intro j hj _
        rcases List.mem_cons.mp hj with rfl | hj
        · exact le_refl j
        · exact le_of_lt (List.rel_of_pairwise_cons (List.chain'_iff_pairwise.mp hs) hj)
      · simp only [Bool.not_eq_true] at hpa
        simp only [hpa] at hfind
        intro j hj hpj
        rcases List.mem_cons.mp hj with rfl | hj
        · rw [hpj] at hpa; cases hpa
        · exact find?_first_min p rs (List.Chain'.tail hs) i hfind j hj hpj

/-- C6: race-start detection cascade.  With strictly increasing timestamps:
no resets → the first timestamp; otherwise the earliest reset at or after a
satisfied 3-second all-moving window start; failing that, the earliest reset
whose own speed exceeds the threshold 20; failing that, the earliest
reset. -/
theorem race_start_detection_cascade (rows : List SignalRow)
    (hsort : List.Chain' (fun a b : SignalRow => a.timestamp < b.timestamp) rows) :
    (raceResetIndices rows = [] → detect_race_start rows = rows.headI.timestamp) ∧
    ((∃ i ∈ raceResetIndices rows, windowOkB rows i = true) →
        ∃ i ∈ raceResetIndices rows, windowOkB rows i = true ∧
          detect_race_start rows = rowTimestamp rows i ∧
          ∀ j ∈ raceResetIndices rows, windowOkB rows j = true →
            rowTimestamp rows i ≤ rowTimestamp rows j) ∧
    ((∀ i ∈ raceResetIndices rows, windowOkB rows i = false) →
      (∃ i ∈ raceResetIndices rows, speedOkB rows i = true) →
        ∃ i ∈ raceResetIndices rows, speedOkB rows i = true ∧
          detect_race_start rows = rowTimestamp rows i ∧
          ∀ j ∈ raceResetIndices rows, speedOkB rows j = true →
            rowTimestamp rows i ≤ rowTimestamp rows j) ∧
    (raceResetIndices rows ≠ [] →
      (∀ i ∈ raceResetIndices rows, windowOkB rows i = false) →
      (∀ i ∈ raceResetIndices rows, speedOkB rows i = false) →
        ∃ i ∈ raceResetIndices rows, detect_race_start rows = rowTimestamp rows i ∧
          ∀ j ∈ raceResetIndices rows, rowTimestamp rows i ≤ rowTimestamp rows j) := by
  have hsb := raceResetIndices_sorted_bounds rows
  have hmono := rowTimestamp_mono rows hsort
  refine ⟨fun hR => ?_, fun hex => ?_, fun hallW hex => ?_, fun hne hallW hallS => ?_⟩
  · rw [detect_race_start, if_pos (List.isEmpty_iff.mpr hR)]
  · obtain ⟨i0, hi0, hw0⟩ := hex
    have hne : raceResetIndices rows ≠ [] := List.ne_nil_of_mem hi0
    rcases hfind : (raceResetIndices rows).find? (fun i => windowOkB rows i) with _ | i
    · exact absurd (List.find?_eq_none.mp hfind i0 hi0) (by simp [hw0])
    · have himem := List.mem_of_find?_eq_some hfind
      have hip : windowOkB rows i = true := by simpa using List.find?_some hfind
      refine ⟨i, himem, hip, ?_, ?_⟩
      · rw [detect_race_start,
          if_neg (fun h => hne (List.isEmpty_iff.mp h)), hfind]
      · intro j hj hpj
        have hij := find?_first_min _ _ hsb.1 i hfind j hj (by simpa using hpj)
        exact hmono i j hij (hsb.2 j hj).2
  · obtain ⟨i0, hi0, hs0⟩ := hex
    have hne : raceResetIndices rows ≠ [] := List.ne_nil_of_mem hi0
    have hfindW : (raceResetIndices rows).find? (fun i => windowOkB rows i) = none :=
      List.find?_eq_none.mpr (fun x hx => by simp [hallW x hx])
    rcases hfind : (raceResetIndices rows).find? (fun i => speedOkB rows i) with _ | i
    · exact absurd (List.find?_eq_none.mp hfind i0 hi0) (by simp [hs0])
    · have himem := List.mem_of_find?_eq_some hfind
      have hip : speedOkB rows i = true := by simpa using List.find?_some hfind
      refine ⟨i, himem, hip, ?_, ?_⟩
      · rw [detect_race_start,
          if_neg (fun h => hne (List.isEmpty_iff.mp h)), hfindW, hfind]
      · intro j hj hpj
        have hij := find?_first_min _ _ hsb.1 i hfind j hj (by simpa using hpj)
        exact hmono i j hij (hsb.2 j hj).2
  · have hfindW : (raceResetIndices rows).find? (fun i => windowOkB rows i) = none :=
      List.find?_eq_none.mpr (fun x hx => by simp [hallW x hx])
    have hfindS : (raceResetIndices rows).find? (fun i => speedOkB rows i) = none :=
      List.find?_eq_none.mpr (fun x hx => by simp [hallS x hx])
    obtain ⟨r0, rrest, hRcons⟩ := List.exists_cons_of_ne_nil hne
    refine ⟨(raceResetIndices rows).headI, by rw [hRcons]; exact List.mem_cons_self r0 rrest, ?_, ?_⟩
    · rw [detect_race_start,
        if_neg (fun h => hne (List.isEmpty_iff.mp h)), hfindW, hfindS]
    · intro j hj
      have hle : (raceResetIndices rows).headI ≤ j := by
        rw [hRcons] at hj ⊢
        rcases List.mem_cons.mp hj with rfl | hj
        · exact le_refl _
        · exact le_of_lt (List.rel_of_pairwise_cons
            (List.chain'_iff_pairwise.mp (by rw [hRcons] at hsb; exact hsb.1)) hj)
      exact hmono _ j hle (hsb.2 j hj).2

/-- C6 witness: a concrete session whose only reset precedes any satisfied
3-second all-moving window; detection falls back to the first reset with
speed above the threshold. -/
theorem race_start_detection_cascade_witness :
    ∃ i ∈ raceResetIndices
        ([⟨0, 5000, 0⟩, ⟨1, 200, 25⟩, ⟨2, 300, 0⟩] : List SignalRow),
      speedOkB ([⟨0, 5000, 0⟩, ⟨1, 200, 25⟩, ⟨2, 300, 0⟩] : List SignalRow) i = true ∧
        detect_race_start ([⟨0, 5000, 0⟩, ⟨1, 200, 25⟩, ⟨2, 300, 0⟩] : List SignalRow) =
          rowTimestamp ([⟨0, 5000, 0⟩, ⟨1, 200, 25⟩, ⟨2, 300, 0⟩] : List SignalRow) i ∧
        ∀ j ∈ raceResetIndices
            ([⟨0, 5000, 0⟩, ⟨1, 200, 25⟩, ⟨2, 300, 0⟩] : List SignalRow),
          speedOkB ([⟨0, 5000, 0⟩, ⟨1, 200, 25⟩, ⟨2, 300, 0⟩] : List SignalRow) j = true →
            rowTimestamp ([⟨0, 5000, 0⟩, ⟨1, 200, 25⟩, ⟨2, 300, 0⟩] : List SignalRow) i ≤
              rowTimestamp ([⟨0, 5000, 0⟩, ⟨1, 200, 25⟩, ⟨2, 300, 0⟩] : List SignalRow) j := by
  have hR : raceResetIndices
      ([⟨0, 5000, 0⟩, ⟨1, 200, 25⟩, ⟨2, 300, 0⟩] : List SignalRow) = [1] := by
    norm_num [raceResetIndices, raceResetAux]
  have hW : movingWindowStarts
      ([⟨0, 5000, 0⟩, ⟨1, 200, 25⟩, ⟨2, 300, 0⟩] : List SignalRow) = [] := by
    norm_num [movingWindowStarts, isMovingWindowStart, List.filter, List.all]
  refine (race_start_detection_cascade _ ?_).2.2.1 ?_ ?_
  · norm_num [List.chain'_cons]
  · intro i hi
    rw [windowOkB, hW]
    rfl
  · refine ⟨1, by rw [hR]; exact List.mem_cons_self 1 [], ?_⟩
    norm_num [speedOkB]

lemma keyGE_iff (a b : ℕ × CarState) :
    keyGE a b = true ↔
      (b.2.lap < a.2.lap ∨ (a.2.lap = b.2.lap ∧
        (b.2.lapdist < a.2.lapdist ∨ (a.2.lapdist = b.2.lapdist ∧ b.1 ≤ a.1)))) := by
  simp [keyGE]

lemma keyGE_refl (a : ℕ × CarState) : keyGE a a = true := by
  rw [keyGE_iff]
  exact Or.inr ⟨rfl, Or.inr ⟨rfl, le_refl _⟩⟩

lemma keyGE_total (a b : ℕ × CarState) : (keyGE a b || keyGE b a) = true := by
  rw [Bool.or_eq_true, keyGE_iff, keyGE_iff]
  rcases lt_trichotomy a.2.lap b.2.lap with h | h | h
  · exact Or.inr (Or.inl h)
  · rcases lt_trichotomy a.2.lapdist b.2.lapdist with h2 | h2 | h2
    · exact Or.inr (Or.inr ⟨h.symm, Or.inl h2⟩)
    · rcases le_total b.1 a.1 with h3 | h3
      · exact Or.inl (Or.inr ⟨h, Or.inr ⟨h2, h3⟩⟩)
      · exact Or.inr (Or.inr ⟨h.symm, Or.inr ⟨h2.symm, h3⟩⟩)
    · exact Or.inl (Or.inr ⟨h, Or.inl h2⟩)
  · exact Or.inl (Or.inl h)

lemma keyGE_trans (a b c : ℕ × CarState) (hab : keyGE a b = true)
    (hbc : keyGE b c = true) : keyGE a c = true := by
  rw [keyGE_iff] at hab hbc ⊢
  rcases hab with h1 | ⟨h1, h1r⟩
  · rcases hbc with h2 | ⟨h2, _⟩
    · exact Or.inl (lt_trans h2 h1)
    · exact Or.inl (h2 ▸ h1)
  · rcases hbc with h2 | ⟨h2, h2r⟩
    · exact Or.inl (h1 ▸ h2)
    · refine Or.inr ⟨h1.trans h2, ?_⟩
      rcases h1r with h3 | ⟨h3, h3r⟩
      · rcases h2r with h4 | ⟨h4, _⟩
        · exact Or.inl (lt_trans h4 h3)
        · exact Or.inl (h4 ▸ h3)
      · rcases h2r with h4 | ⟨h4, h4r⟩
        · exact Or.inl (h3 ▸ h4)
        · exact Or.inr ⟨h3.trans h4, le_trans h4r h3r⟩

/-- C10: with no cars loaded, `get_race_order` returns a `none` leader and
no entries; otherwise the leader is a car of the input that is greatest
under the descending `(lap, lapdist, car_id)` ordering, and every returned
entry has a non-negative `laps_down` with `on_lead_lap` holding exactly
when `laps_down = 0`. -/
theorem race_order_leader_and_laps_down (states : List (ℕ × CarState)) :
    (states = [] → get_race_order states = (none, [])) ∧
    (states ≠ [] →
      ∃ leader ∈ states,
        (get_race_order states).1 = some leader.1 ∧
        (∀ p ∈ states, keyGE leader p = true) ∧
        ∀ e ∈ (get_race_order states).2,
          0 ≤ e.laps_down ∧ (e.on_lead_lap = true ↔ e.laps_down = 0)) := by
  constructor
  · intro h
    rw [get_race_order, if_pos (List.isEmpty_iff.mpr h)]
  · intro hne
    have hperm := List.mergeSort_perm states keyGE
    have hsortne : states.mergeSort keyGE ≠ [] := by
      intro h
      exact hne (List.Perm.eq_nil (h ▸ hperm).symm)
    obtain ⟨h0, t0, hcons⟩ := List.exists_cons_of_ne_nil hsortne
    have hleader : (states.mergeSort keyGE).headI = h0 := by rw [hcons]; rfl
    have hmem : h0 ∈ states :=
      hperm.mem_iff.mp (by rw [hcons]; exact List.mem_cons_self h0 t0)
    have hpair := List.sorted_mergeSort keyGE_trans keyGE_total states
    have hmax : ∀ p ∈ states, keyGE h0 p = true := by
      intro p hp
      have hp2 : p ∈ states.mergeSort keyGE := hperm.mem_iff.mpr hp
      rw [hcons] at hp2 hpair
      rcases List.mem_cons.mp hp2 with rfl | hp2
      · exact keyGE_refl p
      · exact List.rel_of_pairwise_cons hpair hp2
    have hif : states.isEmpty = false := by
      rcases states with _ | ⟨s, ss⟩
      · exact absurd rfl hne
      · rfl
    refine ⟨h0, hmem, ?_, hmax, ?_⟩
    · rw [get_race_order, hif]
      simp only [Bool.false_eq_true, if_false, hleader]
    · intro e he
      rw [get_race_order, hif] at he
      simp only [Bool.false_eq_true, if_false, hleader] at he
      obtain ⟨p, _, rfl⟩ := List.mem_map.mp he
      constructor
      · exact le_max_left 0 _
      · simp only [decide_eq_true_eq]

/-- C10 witness: a single loaded car is its own leader, with `laps_down = 0`
and `on_lead_lap` true. -/
theorem race_order_leader_and_laps_down_witness :
    ∃ leader ∈ ([(5, ⟨3, 100⟩)] : List (ℕ × CarState)),
      (get_race_order [(5, ⟨3, 100⟩)]).1 = some leader.1 ∧
      (∀ p ∈ ([(5, ⟨3, 100⟩)] : List (ℕ × CarState)), keyGE leader p = true) ∧
      ∀ e ∈ (get_race_order [(5, ⟨3, 100⟩)]).2,
        0 ≤ e.laps_down ∧ (e.on_lead_lap = true ↔ e.laps_down = 0) :=
  (race_order_leader_and_laps_down [(5, ⟨3, 100⟩)]).2 (by simp)

lemma cumsumFrom_chain (acc : ℚ) :
    ∀ (l : List ℚ), (∀ x ∈ l, 0 ≤ x) →
      List.Chain (· ≤ ·) acc (cumsumFrom acc l)
  | [], _ => List.Chain.nil
  | a :: rest, h => by
      rw [cumsumFrom]
      exact List.Chain.cons (by have := h a (List.mem_cons_self a rest); linarith)
        (cumsumFrom_chain (acc + a) rest (fun x hx => h x (List.mem_cons_of_mem a hx)))

lemma zipsub_nonneg :
    ∀ (rest : List ℚ) (a : ℚ), List.Chain (· ≤ ·) a rest →
      ∀ x ∈ List.zipWith (fun x y => x - y) rest (a :: rest), 0 ≤ x
  | [], _, _, x, hx => by cases hx
  | b :: rs, a, hch, x, hx => by
      rw [List.zipWith_cons_cons] at hx
      rcases List.mem_cons.mp hx with rfl | hx
      · rcases hch with _ | ⟨hab, _⟩
        linarith
      · rcases hch with _ | ⟨_, hch⟩
        exact zipsub_nonneg rs b hch x hx

lemma dsPrepend_nonneg (s : List ℚ) (h : List.Chain' (· ≤ ·) s) :
    ∀ x ∈ dsPrepend s, 0 ≤ x := by
  cases s with
  | nil => intro x hx; cases hx
  | cons a rest =>
      intro x hx
      rw [dsPrepend, List.zipWith_cons_cons] at hx
      rcases List.mem_cons.mp hx with rfl | hx
      · linarith
      · exact zipsub_nonneg rest a h x hx

lemma idealSpeeds_pos (rows : List CanonRow) : ∀ v ∈ idealSpeeds rows, 0 < v := by
  intro v hv
  obtain ⟨r, _, rfl⟩ := List.mem_map.mp hv
  have : (15 : ℚ) ≤ max (r.ref_speed_ms * (1 - (11/20) * (r.curvature / curvMaxGuard rows))) 15 :=
    le_max_right _ _
  linarith

lemma zipWith_div_nonneg :
    ∀ (l1 l2 : List ℚ), (∀ x ∈ l1, 0 ≤ x) → (∀ v ∈ l2, 0 < v) →
      ∀ x ∈ List.zipWith (fun d v => d / v) l1 l2, 0 ≤ x
  | [], _, _, _, x, hx => by cases hx
  | _ :: _, [], _, _, x, hx => by cases hx
  | d :: ds, v :: vs, h1, h2, x, hx => by
      rw [List.zipWith_cons_cons] at hx
      rcases List.mem_cons.mp hx with rfl | hx
      · exact div_nonneg (h1 d (List.mem_cons_self d ds)) (h2 v (List.mem_cons_self v vs)).le
      · exact zipWith_div_nonneg ds vs
          (fun x hx => h1 x (List.mem_cons_of_mem d hx))
          (fun x hx => h2 x (List.mem_cons_of_mem v hx)) x hx

lemma idealTimes_chain (rows : List CanonRow)
    (hmono : List.Chain' (· ≤ ·) (rows.map (fun r => r.dist_m))) :
    List.Chain' (· ≤ ·) (idealTimes rows) := by
  have h := cumsumFrom_chain 0 _
    (zipWith_div_nonneg (dsPrepend (rows.map (fun r => r.dist_m))) (idealSpeeds rows)
      (dsPrepend_nonneg _ hmono) (idealSpeeds_pos rows))
  have h2 : List.Chain' (· ≤ ·) ((0 : ℚ) :: cumsumFrom 0
      (List.zipWith (fun d v => d / v)
        (dsPrepend (rows.map (fun r => r.dist_m))) (idealSpeeds rows))) := h
  exact h2.tail

lemma cumsumFrom_ge (acc : ℚ) :
    ∀ (l : List ℚ), (∀ x ∈ l, 0 ≤ x) → ∀ x ∈ cumsumFrom acc l, acc ≤ x
  | [], _, x, hx => by cases hx
  | a :: rest, h, x, hx => by
      rw [cumsumFrom] at hx
      have ha : 0 ≤ a := h a (List.mem_cons_self a rest)
      rcases List.mem_cons.mp hx with rfl | hx
      · linarith
      · have := cumsumFrom_ge (acc + a) rest
          (fun x hx => h x (List.mem_cons_of_mem a hx)) x hx
        linarith

lemma idealTimes_headI (rows : List CanonRow) (hne : rows ≠ []) :
    (idealTimes rows).headI = 0 := by
  cases rows with
  | nil => exact absurd rfl hne
  | cons r rest =>
      rw [idealTimes, List.map_cons, dsPrepend, idealSpeeds, List.map_cons,
        List.zipWith_cons_cons, List.zipWith_cons_cons, cumsum, cumsumFrom]
      simp

lemma getLastI_cons_cons :
    ∀ (a b : ℚ) (t : List ℚ), (a :: b :: t).getLastI = (b :: t).getLastI
  | _, _, [] => rfl
  | _, _, [_] => rfl
  | a, b, c :: d :: u => by
      have h1 : (a :: b :: c :: d :: u).getLastI = (c :: d :: u).getLastI := rfl
      have h2 : (b :: c :: d :: u).getLastI = (d :: u).getLastI := rfl
      rw [h1, h2]
      exact getLastI_cons_cons c d u

lemma getLastI_mem : ∀ (l : List ℚ), l ≠ [] → l.getLastI ∈ l
  | [a], _ => by rw [List.getLastI]; exact List.mem_cons_self a []
  | a :: b :: t, _ => by
      rw [getLastI_cons_cons a b t]
      exact List.mem_cons_of_mem a (getLastI_mem (b :: t) (by simp))

lemma sorted_mem_le_getLastI :
    ∀ (l : List ℚ), List.Chain' (· ≤ ·) l → ∀ x ∈ l, x ≤ l.getLastI
  | [], _, x, hx => by cases hx
  | [a], _, x, hx => by
      rcases List.mem_cons.mp hx with rfl | hx
      · rw [List.getLastI]
      · cases hx
  | a :: b :: t, h, x, hx => by
      rw [getLastI_cons_cons a b t]
      rcases List.mem_cons.mp hx with rfl | hx
      · rcases List.chain'_cons.mp h with ⟨hab, ht⟩
        exact le_trans hab
          (sorted_mem_le_getLastI (b :: t) ht b (List.mem_cons_self b t))
      · exact sorted_mem_le_getLastI (b :: t) (List.chain'_cons.mp h).2 x hx

lemma spanI_nonneg (l : List ℚ) (h : List.Chain' (· ≤ ·) l) : 0 ≤ spanI l := by
  cases l with
  | nil => rw [spanI]; simp
  | cons a rest =>
      rw [spanI]
      simp only [List.isEmpty_cons, if_false, Bool.false_eq_true]
      have : (a :: rest).headI ≤ (a :: rest).getLastI :=
        sorted_mem_le_getLastI _ h _ (by
          rw [List.headI]; exact List.mem_cons_self a rest)
      linarith

lemma headI_append (A B : List ℚ) (hA : A ≠ []) : (A ++ B).headI = A.headI := by
  cases A with
  | nil => exact absurd rfl hA
  | cons a t => rfl

lemma getLastI_append : ∀ (A B : List ℚ), B ≠ [] → (A ++ B).getLastI = B.getLastI
  | [], _, _ => by rw [List.nil_append]
  | a :: t, B, hB => by
      rw [List.cons_append]
      have hne : t ++ B ≠ [] := fun h => hB (List.append_eq_nil.mp h).2
      obtain ⟨c, u, hcu⟩ := List.exists_cons_of_ne_nil hne
      rw [hcu, getLastI_cons_cons a c u, ← hcu]
      exact getLastI_append t B hB

lemma spanI_append (A B : List ℚ) (h : List.Chain' (· ≤ ·) (A ++ B)) :
    spanI A + spanI B ≤ spanI (A ++ B) := by
  rcases eq_or_ne A [] with rfl | hA
  · rw [List.nil_append] at h ⊢
    rw [spanI]
    simp only [List.isEmpty_nil, if_true]
    linarith [spanI_nonneg B h]
  · rcases eq_or_ne B [] with rfl | hB
    · rw [List.append_nil] at h ⊢
      rw [show spanI [] = 0 from rfl]
      linarith [spanI_nonneg A h]
    · have hAB : A ++ B ≠ [] := fun hc => hA (List.append_eq_nil.mp hc).1
      rw [spanI, spanI, spanI,
        if_neg (by simp [List.isEmpty_iff, hA]),
        if_neg (by simp [List.isEmpty_iff, hB]),
        if_neg (by simp [List.isEmpty_iff, hAB]),
        headI_append A B hA, getLastI_append A B hB]
      have hp := List.chain'_iff_pairwise.mp h
      have hcross : A.getLastI ≤ B.headI := by
        have hmA : A.getLastI ∈ A := getLastI_mem A hA
        have hmB : B.headI ∈ B := by
          obtain ⟨b, u, rfl⟩ := List.exists_cons_of_ne_nil hB
          exact List.mem_cons_self b u
        exact (List.pairwise_append.mp hp).2.2 _ hmA _ hmB
      have hAsp : A.headI ≤ A.getLastI := by
        have := spanI_nonneg A (List.chain'_iff_pairwise.mpr (List.Pairwise.sublist
          (List.sublist_append_left A B) hp))
        rw [spanI, if_neg (by simp [List.isEmpty_iff, hA])] at this
        linarith
      have hBsp : B.headI ≤ B.getLastI := by
        have := spanI_nonneg B (List.chain'_iff_pairwise.mpr (List.Pairwise.sublist
          (List.sublist_append_right A B) hp))
        rw [spanI, if_neg (by simp [List.isEmpty_iff, hB])] at this
        linarith
      linarith

lemma spanI_sublist (u w : List ℚ) (h : List.Chain' (· ≤ ·) u)
    (hw : w.Sublist u) : spanI w ≤ spanI u := by
  rcases eq_or_ne w [] with rfl | hwne
  · rw [show spanI [] = 0 from rfl]
    exact spanI_nonneg u h
  · have hune : u ≠ [] := by
      intro hc
      subst hc
      exact hwne (List.sublist_nil.mp hw)
    rw [spanI, spanI, if_neg (by simp [List.isEmpty_iff, hwne]),
      if_neg (by simp [List.isEmpty_iff, hune])]
    have hwsub : ∀ x ∈ w, x ∈ u := fun x hx => hw.mem hx
    have hd : u.headI ≤ w.headI := by
      obtain ⟨a, t, rfl⟩ := List.exists_cons_of_ne_nil hune
      refine sorted_head_le a t _ h ?_
      apply hwsub
      obtain ⟨b, s, rfl⟩ := List.exists_cons_of_ne_nil hwne
      exact List.mem_cons_self b s
    have hl : w.getLastI ≤ u.getLastI :=
      sorted_mem_le_getLastI u h _ (hwsub _ (getLastI_mem w hwne))
    linarith

lemma filter_lt_eq_takeWhile (b : ℚ) :
    ∀ (P : List (ℚ × ℚ)), List.Pairwise (fun p q : ℚ × ℚ => p.1 ≤ q.1) P →
      P.filter (fun p => decide (p.1 < b)) = P.takeWhile (fun p => decide (p.1 < b))
  | [], _ => rfl
  | p :: rest, hp => by
      by_cases hpb : p.1 < b
      · have hb : decide (p.1 < b) = true := by simpa using hpb
        rw [List.filter_cons, List.takeWhile_cons, if_pos hb, if_pos hb,
          filter_lt_eq_takeWhile b rest hp.of_cons]
      · have hb : ¬ decide (p.1 < b) = true := by simpa using hpb
        rw [List.filter_cons, List.takeWhile_cons, if_neg hb, if_neg hb,
          List.filter_eq_nil_iff]
        intro q hq
        have h1 : p.1 ≤ q.1 := List.rel_of_pairwise_cons hp hq
        simp only [decide_eq_true_eq]
        intro h2
        exact hpb (lt_of_le_of_lt h1 h2)

lemma filter_ge_eq_dropWhile (a : ℚ) :
    ∀ (P : List (ℚ × ℚ)), List.Pairwise (fun p q : ℚ × ℚ => p.1 ≤ q.1) P →
      P.filter (fun p => decide (a ≤ p.1)) = P.dropWhile (fun p => decide (p.1 < a))
  | [], _ => rfl
  | p :: rest, hp => by
      by_cases hpa : p.1 < a
      · have h1 : ¬ decide (a ≤ p.1) = true := by simpa using not_le.mpr hpa
        have h2 : decide (p.1 < a) = true := by simpa using hpa
        rw [List.filter_cons, List.dropWhile_cons, if_neg h1, if_pos h2]
        exact filter_ge_eq_dropWhile a rest hp.of_cons
      · have h1 : decide (a ≤ p.1) = true := by simpa using not_lt.mp hpa
        have h2 : ¬ decide (p.1 < a) = true := by simpa using hpa
        rw [List.filter_cons, List.dropWhile_cons, if_pos h1, if_neg h2]
        congr 1
        rw [List.filter_eq_self]
        intro q hq
        have h3 : p.1 ≤ q.1 := List.rel_of_pairwise_cons hp hq
        have h4 : a ≤ p.1 := not_lt.mp hpa
        simpa using le_trans h4 h3

lemma takeWhile_append_of_all (p : ℚ × ℚ → Bool) :
    ∀ (X Y : List (ℚ × ℚ)), (∀ x ∈ X, p x = true) →
      (X ++ Y).takeWhile p = X ++ Y.takeWhile p
  | [], _, _ => rfl
  | x :: xs, Y, h => by
      rw [List.cons_append, List.takeWhile_cons, if_pos (h x (List.mem_cons_self x xs)),
        List.cons_append, takeWhile_append_of_all p xs Y
          (fun y hy => h y (List.mem_cons_of_mem x hy))]

lemma takeWhile_lt_split (a b : ℚ) (hab : a ≤ b) (P : List (ℚ × ℚ)) :
    P.takeWhile (fun p => decide (p.1 < b)) =
      P.takeWhile (fun p => decide (p.1 < a)) ++
        (P.dropWhile (fun p => decide (p.1 < a))).takeWhile (fun p => decide (p.1 < b)) := by
  conv_lhs => rw [← List.takeWhile_append_dropWhile (fun p => decide (p.1 < a)) P]
  refine takeWhile_append_of_all _ _ _ ?_
  intro x hx
  have := List.mem_takeWhile_imp hx
  simp only [decide_eq_true_eq] at this ⊢
  linarith

lemma filter_interval_eq (a b : ℚ) (P : List (ℚ × ℚ))
    (hp : List.Pairwise (fun p q : ℚ × ℚ => p.1 ≤ q.1) P) :
    P.filter (fun p => decide (a ≤ p.1) && decide (p.1 < b)) =
      (P.dropWhile (fun p => decide (p.1 < a))).takeWhile (fun p => decide (p.1 < b)) := by
  have h1 : P.filter (fun p => decide (a ≤ p.1) && decide (p.1 < b)) =
      (P.filter (fun p => decide (a ≤ p.1))).filter (fun p => decide (p.1 < b)) := by
    rw [List.filter_filter]
    exact List.filter_congr (fun x _ => Bool.and_comm _ _)
  rw [h1, filter_ge_eq_dropWhile a P hp]
  exact filter_lt_eq_takeWhile b _ (hp.sublist (List.dropWhile_sublist _))

lemma filter_upto_eq (a b : ℚ) (P : List (ℚ × ℚ))
    (hp : List.Pairwise (fun p q : ℚ × ℚ => p.1 ≤ q.1) P) :
    P.filter (fun p => decide (a ≤ p.1) && decide (p.1 ≤ b)) =
      (P.dropWhile (fun p => decide (p.1 < a))).filter (fun p => decide (p.1 ≤ b)) := by
  have h1 : P.filter (fun p => decide (a ≤ p.1) && decide (p.1 ≤ b)) =
      (P.filter (fun p => decide (a ≤ p.1))).filter (fun p => decide (p.1 ≤ b)) := by
    rw [List.filter_filter]
    exact List.filter_congr (fun x _ => Bool.and_comm _ _)
  rw [h1, filter_ge_eq_dropWhile a P hp]

lemma sector_spans_le (e : ℕ → ℚ) :
    ∀ (m : ℕ) (P : List (ℚ × ℚ)),
      (∀ i, i < m → e i ≤ e (i + 1)) →
      List.Pairwise (fun p q : ℚ × ℚ => p.1 ≤ q.1) P →
      List.Pairwise (fun p q : ℚ × ℚ => p.2 ≤ q.2) P →
      ((List.range m).map (fun i => spanI ((P.filter
          (fun p => decide (e i ≤ p.1) && decide (p.1 < e (i + 1)))).map Prod.snd))).sum ≤
        spanI ((P.takeWhile (fun p => decide (p.1 < e m))).map Prod.snd)
  | 0, P, _, hp1, hp2 => by
      rw [List.range_zero, List.map_nil, List.sum_nil]
      refine spanI_nonneg _ (List.chain'_iff_pairwise.mpr ?_)
      rw [List.pairwise_map]
      exact hp2.sublist (List.takeWhile_sublist _)
  | m + 1, P, hmono, hp1, hp2 => by
      rw [List.range_succ, List.map_append, List.sum_append, List.map_cons, List.map_nil,
        List.sum_cons, List.sum_nil, add_zero]
      have IH := sector_spans_le e m P (fun i hi => hmono i (by omega)) hp1 hp2
      have hterm : P.filter (fun p => decide (e m ≤ p.1) && decide (p.1 < e (m + 1))) =
          (P.dropWhile (fun p => decide (p.1 < e m))).takeWhile
            (fun p => decide (p.1 < e (m + 1))) :=
        filter_interval_eq _ _ P hp1
      have hsplit := takeWhile_lt_split (e m) (e (m + 1)) (hmono m (by omega)) P
      rw [hterm, hsplit, List.map_append]
      have hs : List.Chain' (· ≤ ·)
          ((P.takeWhile (fun p => decide (p.1 < e m))).map Prod.snd ++
            ((P.dropWhile (fun p => decide (p.1 < e m))).takeWhile
              (fun p => decide (p.1 < e (m + 1)))).map Prod.snd) := by
        rw [← List.map_append, ← hsplit]
        refine List.chain'_iff_pairwise.mpr ?_
        rw [List.pairwise_map]
        exact hp2.sublist (List.takeWhile_sublist _)
      have happ := spanI_append _ _ hs
      linarith

lemma cumsumFrom_length (acc : ℚ) :
    ∀ (l : List ℚ), (cumsumFrom acc l).length = l.length
  | [] => rfl
  | a :: rest => by
      rw [cumsumFrom, List.length_cons, List.length_cons,
        cumsumFrom_length (acc + a) rest]

lemma dsPrepend_length (s : List ℚ) : (dsPrepend s).length = s.length := by
  cases s with
  | nil => rfl
  | cons a rest =>
      rw [dsPrepend, List.length_zipWith]
      simp [min_def]

lemma idealTimes_length (rows : List CanonRow) :
    (idealTimes rows).length = rows.length := by
  rw [idealTimes, cumsum, cumsumFrom_length, List.length_zipWith, dsPrepend_length,
    idealSpeeds, List.length_map, List.length_map]
  simp

/-- C1 amended: the sectors partition `[0, track_length_m]` contiguously and
exhaustively into `n_sectors` equal-distance sectors, each sector ideal time
is non-negative, and their sum is bounded by `ideal_lap_time_s`; the sum
falls short of the total by the ideal-time steps at which a new sector's
first sample follows the previous sector's last sample, so it need not
equal the total. -/
theorem sectors_partition_and_sum_bounded_by_lap_time
    (rows : List CanonRow) (n : ℕ) (hn : 0 < n) (hne : rows ≠ [])
    (hmono : List.Chain' (· ≤ ·) (rows.map (fun r => r.dist_m)))
    (h0 : (rows.map (fun r => r.dist_m)).headI = 0) :
    sectorStart rows n 0 = 0 ∧
    (∀ i : ℕ, sectorStart rows n (i + 1) = sectorEnd rows n i) ∧
    sectorEnd rows n (n - 1) = trackLength rows ∧
    (∀ i : ℕ, i < n → 0 ≤ sectorTime rows n i) ∧
    sectorSum rows n ≤ idealLapTime rows := by
  haveI : IsTrans ℚ (· ≤ ·) := ⟨fun _ _ _ => le_trans⟩
  have hslen : (rows.map (fun r => r.dist_m)).length = rows.length := List.length_map _ _
  have htlen : (idealTimes rows).length = rows.length := idealTimes_length rows
  have hfst : (sectorPairs rows).map Prod.fst = rows.map (fun r => r.dist_m) :=
    List.map_fst_zip _ _ (by rw [hslen, htlen])
  have hsnd : (sectorPairs rows).map Prod.snd = idealTimes rows :=
    List.map_snd_zip _ _ (by rw [hslen, htlen])
  have hmono' := List.chain'_iff_pairwise.mp hmono
  have htchain := idealTimes_chain rows hmono
  have htpair := List.chain'_iff_pairwise.mp htchain
  have hpfst : List.Pairwise (fun p q : ℚ × ℚ => p.1 ≤ q.1) (sectorPairs rows) :=
    List.pairwise_map.mp (hfst.symm ▸ hmono')
  have hpsnd : List.Pairwise (fun p q : ℚ × ℚ => p.2 ≤ q.2) (sectorPairs rows) :=
    List.pairwise_map.mp (hsnd.symm ▸ htpair)
  have hsne : rows.map (fun r => r.dist_m) ≠ [] := by
    intro hc
    exact hne (List.map_eq_nil_iff.mp hc)
  have htne : idealTimes rows ≠ [] := by
    intro hc
    rw [hc] at htlen
    exact hne (List.length_eq_zero.mp htlen.symm)
  have hL0 : 0 ≤ trackLength rows := by
    rw [trackLength, ← h0]
    exact sorted_mem_le_getLastI _ hmono _ (by
      obtain ⟨a, tl, hcons⟩ := List.exists_cons_of_ne_nil hsne
      rw [hcons, List.headI_cons]
      exact List.mem_cons_self a tl)
  refine ⟨?_, fun i => rfl, ?_, ?_, ?_⟩
  · rw [sectorStart, sectorEdge]
    simp
  · rw [sectorEnd]
    have hsub : n - 1 + 1 = n := by omega
    rw [hsub, sectorEdge, mul_div_cancel_right₀ _ (Nat.cast_ne_zero.mpr (by omega) : (n : ℚ) ≠ 0)]
  · intro i _
    rw [sectorTime]
    refine spanI_nonneg _ (List.chain'_iff_pairwise.mpr ?_)
    rw [List.pairwise_map]
    exact hpsnd.sublist (List.filter_sublist _)
  · obtain ⟨m, rfl⟩ : ∃ m, n = m + 1 := ⟨n - 1, by omega⟩
    have hemono : ∀ i : ℕ, i < m →
        sectorEdge (trackLength rows) (m + 1) i ≤ sectorEdge (trackLength rows) (m + 1) (i + 1) := by
      intro i _
      rw [sectorEdge, sectorEdge]
      refine (div_le_div_iff_of_pos_right (by exact_mod_cast Nat.succ_pos m)).mpr ?_
      refine mul_le_mul_of_nonneg_left ?_ hL0
      exact_mod_cast Nat.le_succ i
    rw [sectorSum, List.range_succ, List.map_append, List.sum_append, List.map_cons,
      List.map_nil, List.sum_cons, List.sum_nil, add_zero]
    have hmap : (List.range m).map (fun i => sectorTime rows (m + 1) i) =
        (List.range m).map (fun i => spanI (((sectorPairs rows).filter
          (fun p => decide (sectorEdge (trackLength rows) (m + 1) i ≤ p.1) &&
            decide (p.1 < sectorEdge (trackLength rows) (m + 1) (i + 1)))).map Prod.snd)) := by
      refine List.map_congr_left ?_
      intro i hi
      rw [sectorTime]
      congr 1
      congr 1
      refine List.filter_congr ?_
      intro p _
      rw [inSector, if_pos (by have := List.mem_range.mp hi; omega)]
    rw [hmap]
    have hbound1 := sector_spans_le (fun i => sectorEdge (trackLength rows) (m + 1) i)
      m (sectorPairs rows) hemono hpfst hpsnd
    have hlast : sectorTime rows (m + 1) m = spanI (((sectorPairs rows).filter
        (fun p => decide (sectorEdge (trackLength rows) (m + 1) m ≤ p.1) &&
          decide (p.1 ≤ sectorEdge (trackLength rows) (m + 1) (m + 1)))).map Prod.snd) := by
      rw [sectorTime]
      congr 1
      congr 1
      refine List.filter_congr ?_
      intro p _
      rw [inSector, if_neg (by omega)]
    have hbound2 : sectorTime rows (m + 1) m ≤ spanI (((sectorPairs rows).dropWhile
        (fun p => decide (p.1 < sectorEdge (trackLength rows) (m + 1) m))).map Prod.snd) := by
      rw [hlast, filter_upto_eq _ _ _ hpfst]
      refine spanI_sublist _ _ (List.chain'_iff_pairwise.mpr ?_) ?_
      · rw [List.pairwise_map]
        exact hpsnd.sublist (List.dropWhile_sublist _)
      · exact (List.filter_sublist _).map Prod.snd
    have happ := spanI_append
      (((sectorPairs rows).takeWhile
        (fun p => decide (p.1 < sectorEdge (trackLength rows) (m + 1) m))).map Prod.snd)
      (((sectorPairs rows).dropWhile
        (fun p => decide (p.1 < sectorEdge (trackLength rows) (m + 1) m))).map Prod.snd)
      (by
        rw [← List.map_append, List.takeWhile_append_dropWhile, hsnd]
        exact htchain)
    rw [← List.map_append, List.takeWhile_append_dropWhile, hsnd] at happ
    have hspan : spanI (idealTimes rows) = idealLapTime rows := by
      rw [spanI, if_neg (by simp [List.isEmpty_iff, htne]), idealTimes_headI rows hne,
        idealLapTime]
      ring
    linarith

/-- C1 witness: the sector partition and sum bound instantiated on a
concrete four-sample canonical line with two sectors. -/
theorem sectors_partition_and_sum_bounded_witness :
    sectorStart [⟨0, 0, 20⟩, ⟨10, 0, 20⟩, ⟨90, 0, 20⟩, ⟨100, 0, 20⟩] 2 0 = 0 ∧
    (∀ i : ℕ, sectorStart [⟨0, 0, 20⟩, ⟨10, 0, 20⟩, ⟨90, 0, 20⟩, ⟨100, 0, 20⟩] 2 (i + 1) =
      sectorEnd [⟨0, 0, 20⟩, ⟨10, 0, 20⟩, ⟨90, 0, 20⟩, ⟨100, 0, 20⟩] 2 i) ∧
    sectorEnd [⟨0, 0, 20⟩, ⟨10, 0, 20⟩, ⟨90, 0, 20⟩, ⟨100, 0, 20⟩] 2 (2 - 1) =
      trackLength [⟨0, 0, 20⟩, ⟨10, 0, 20⟩, ⟨90, 0, 20⟩, ⟨100, 0, 20⟩] ∧
    (∀ i : ℕ, i < 2 → 0 ≤ sectorTime [⟨0, 0, 20⟩, ⟨10, 0, 20⟩, ⟨90, 0, 20⟩, ⟨100, 0, 20⟩] 2 i) ∧
    sectorSum [⟨0, 0, 20⟩, ⟨10, 0, 20⟩, ⟨90, 0, 20⟩, ⟨100, 0, 20⟩] 2 ≤
      idealLapTime [⟨0, 0, 20⟩, ⟨10, 0, 20⟩, ⟨90, 0, 20⟩, ⟨100, 0, 20⟩] :=
  sectors_partition_and_sum_bounded_by_lap_time
    [⟨0, 0, 20⟩, ⟨10, 0, 20⟩, ⟨90, 0, 20⟩, ⟨100, 0, 20⟩] 2
    (by norm_num) (by simp) (by norm_num [List.chain'_cons]) (by simp)

/-- C1 counterexample: a canonical line with samples at distances
0, 10, 90, 100 and constant reference speed 20, split into 2 sectors.  The
ideal lap time is 5 s but the sector ideal times sum to 1 s: the sum misses
the 4 s step between the samples at 10 m and 90 m that crosses the sector
boundary at 50 m, so the sum does not equal the total within any
floating-point tolerance. -/
theorem sector_sum_not_lap_time_counterexample :
    idealLapTime [⟨0, 0, 20⟩, ⟨10, 0, 20⟩, ⟨90, 0, 20⟩, ⟨100, 0, 20⟩] = 5 ∧
    sectorSum [⟨0, 0, 20⟩, ⟨10, 0, 20⟩, ⟨90, 0, 20⟩, ⟨100, 0, 20⟩] 2 = 1 ∧
    idealLapTime [⟨0, 0, 20⟩, ⟨10, 0, 20⟩, ⟨90, 0, 20⟩, ⟨100, 0, 20⟩] -
      sectorSum [⟨0, 0, 20⟩, ⟨10, 0, 20⟩, ⟨90, 0, 20⟩, ⟨100, 0, 20⟩] 2 = 4 := by
  have h1 : idealLapTime [⟨0, 0, 20⟩, ⟨10, 0, 20⟩, ⟨90, 0, 20⟩, ⟨100, 0, 20⟩] = 5 := by
    norm_num [idealLapTime, idealTimes, idealSpeeds, curvMaxGuard, colMax, dsPrepend,
      cumsum, cumsumFrom, List.getLastI, max_def]
  have h2 : sectorSum [⟨0, 0, 20⟩, ⟨10, 0, 20⟩, ⟨90, 0, 20⟩, ⟨100, 0, 20⟩] 2 = 1 := by
    norm_num [sectorSum, sectorTime, sectorPairs, idealTimes, idealSpeeds, curvMaxGuard,
      colMax, dsPrepend, cumsum, cumsumFrom, spanI, inSector, sectorEdge, trackLength,
      idealLapTime, max_def, List.range_succ, List.filter, List.getLastI, List.headI]
    rw [if_neg (List.cons_ne_nil _ _), if_neg (List.cons_ne_nil _ _)]
    norm_num
  exact ⟨h1, h2, by rw [h1, h2]; norm_num⟩

lemma cumsumRFrom_chain (acc : ℝ) :
    ∀ (l : List ℝ), (∀ x ∈ l, 0 ≤ x) →
      List.Chain (· ≤ ·) acc (cumsumRFrom acc l)
  | [], _ => List.Chain.nil
  | a :: rest, h => by
      rw [cumsumRFrom]
      exact List.Chain.cons (by have := h a (List.mem_cons_self a rest); linarith)
        (cumsumRFrom_chain (acc + a) rest (fun x hx => h x (List.mem_cons_of_mem a hx)))

lemma sqrt_zipWith_nonneg :
    ∀ (l1 l2 : List (ℚ × ℚ)),
      ∀ x ∈ List.zipWith (fun p q : ℚ × ℚ =>
        Real.sqrt (((p.1 : ℝ) - (q.1 : ℝ)) ^ 2 + ((p.2 : ℝ) - (q.2 : ℝ)) ^ 2)) l1 l2, 0 ≤ x
  | [], _, x, hx => by cases hx
  | _ :: _, [], x, hx => by cases hx
  | p :: ps, r :: rs, x, hx => by
      rw [List.zipWith_cons_cons] at hx
      rcases List.mem_cons.mp hx with rfl | hx
      · exact Real.sqrt_nonneg _
      · exact sqrt_zipWith_nonneg ps rs x hx

/-- C2 amended: for any stacked per-car median lines, the canonical `dist_m`
column is non-decreasing (not in general strictly increasing), its first
entry is 0, and its last entry equals the reported `track_length_m`. -/
theorem canonical_dist_monotone_and_ends (cars : List (List (ℚ × ℚ))) :
    List.Chain' (· ≤ ·) (canonicalDist (canonicalXY cars)) ∧
    (canonicalDist (canonicalXY cars)).getLastI = trackLengthR (canonicalXY cars) ∧
    (canonicalXY cars ≠ [] → (canonicalDist (canonicalXY cars)).headI = 0) := by
  refine ⟨?_, rfl, ?_⟩
  · have hnn : ∀ x ∈ canonicalDs (canonicalXY cars), 0 ≤ x := by
      cases hxy : canonicalXY cars with
      | nil => intro x hx; rw [canonicalDs] at hx; cases hx
      | cons a rest =>
          intro x hx
          rw [canonicalDs] at hx
          exact sqrt_zipWith_nonneg _ _ x hx
    have h := cumsumRFrom_chain 0 _ hnn
    have h2 : List.Chain' (· ≤ ·) ((0 : ℝ) :: cumsumRFrom 0 (canonicalDs (canonicalXY cars))) := h
    exact h2.tail
  · intro hne
    obtain ⟨a, rest, hcons⟩ := List.exists_cons_of_ne_nil hne
    rw [canonicalDist, hcons, canonicalDs, List.zipWith_cons_cons, cumsumRFrom]
    simp

/-- C2 counterexample: a single filtered per-car median line containing a
duplicated consecutive point.  The canonical `dist_m` column is
`[0, 0, 5]`, which is not strictly increasing. -/
theorem canonical_dist_not_strictly_increasing :
    canonicalDist (canonicalXY [[(0, 0), (0, 0), (3, 4)]]) = [0, 0, 5] ∧
    ¬ List.Chain' (· < ·) (canonicalDist (canonicalXY [[(0, 0), (0, 0), (3, 4)]])) := by
  have hXY : canonicalXY [[(0, 0), (0, 0), (3, 4)]] = [(0, 0), (0, 0), (3, 4)] := by
    norm_num [canonicalXY, npMedian, List.mergeSort_singleton, List.range_succ]
  have h25 : Real.sqrt (25 : ℝ) = 5 := by
    rw [show (25 : ℝ) = (5 : ℝ) ^ 2 by norm_num, Real.sqrt_sq (by norm_num : (0 : ℝ) ≤ 5)]
  have hdist : canonicalDist (canonicalXY [[(0, 0), (0, 0), (3, 4)]]) = [0, 0, 5] := by
    rw [hXY]
    simp only [canonicalDist, canonicalDs, List.zipWith_cons_cons, List.zipWith_nil_left,
      cumsumRFrom]
    push_cast
    norm_num [h25]
  refine ⟨hdist, ?_⟩
  rw [hdist]
  rw [List.chain'_cons]
  rintro ⟨h, _⟩
  exact lt_irrefl _ h

/-- C2 witness: the canonical-line invariants instantiated on a concrete
one-car stack, with the nonemptiness hypothesis discharged. -/
theorem canonical_dist_monotone_and_ends_witness :
    canonicalXY [[(0, 0), (1, 0)]] ≠ [] ∧
    (canonicalDist (canonicalXY [[(0, 0), (1, 0)]])).headI = 0 :=
  have hne : canonicalXY [[(0, 0), (1, 0)]] ≠ [] := by
    simp [canonicalXY, List.range_succ]
  ⟨hne, (canonical_dist_monotone_and_ends [[(0, 0), (1, 0)]]).2.2 hne⟩

lemma nearestIdxAux_min (q : ℝ × ℝ) :
    ∀ (rest full : List (ℝ × ℝ)) (bi i : ℕ) (bd : ℝ),
      full.drop i = rest →
      bd = sqDist (full.getD bi (0, 0)) q →
      sqDist (full.getD (nearestIdxAux q bi bd i rest) (0, 0)) q ≤ bd ∧
        ∀ p ∈ rest, sqDist (full.getD (nearestIdxAux q bi bd i rest) (0, 0)) q ≤ sqDist p q
  | [], full, bi, i, bd, _, hbd => by
      rw [nearestIdxAux]
      exact ⟨le_of_eq hbd.symm, fun p hp => absurd hp (List.not_mem_nil p)⟩
  | p :: rs, full, bi, i, bd, hdrop, hbd => by
      have hilen : i < full.length := by
        have hl := congrArg List.length hdrop
        rw [List.length_drop, List.length_cons] at hl
        omega
      have hget2 : full[i]? = some p := by
        have h1 : (full.drop i)[0]? = some p := by rw [hdrop]; simp
        rw [List.getElem?_drop] at h1
        simpa using h1
      have hgetD : full.getD i (0, 0) = p := by
        rw [List.getD_eq_getElem?_getD, hget2]
        rfl
      have hdrop2 : full.drop (i + 1) = rs := by
        have := List.drop_drop 1 i full
        rw [hdrop] at this
        rw [← this]
        rfl
      rw [nearestIdxAux]
      by_cases hlt : sqDist p q < bd
      · rw [if_pos hlt]
        have IH := nearestIdxAux_min q rs full i (i + 1) (sqDist p q) hdrop2
          (by rw [hgetD])
        refine ⟨le_trans IH.1 (le_of_lt hlt), ?_⟩
        intro x hx
        rcases List.mem_cons.mp hx with rfl | hx
        · exact IH.1
        · exact IH.2 x hx
      · rw [if_neg hlt]
        have IH := nearestIdxAux_min q rs full bi (i + 1) bd hdrop2 hbd
        refine ⟨IH.1, ?_⟩
        intro x hx
        rcases List.mem_cons.mp hx with rfl | hx
        · exact le_trans IH.1 (not_lt.mp hlt)
        · exact IH.2 x hx

lemma nearestIdx_min (line : List (ℝ × ℝ)) (q : ℝ × ℝ) :
    ∀ p ∈ line, sqDist (line.getD (nearestIdx line q) (0, 0)) q ≤ sqDist p q := by
  cases line with
  | nil => intro p hp; cases hp
  | cons a rest =>
      intro p hp
      have h := nearestIdxAux_min q rest (a :: rest) 0 1 (sqDist a q)
        (by simp) rfl
      rw [nearestIdx]
      rcases List.mem_cons.mp hp with rfl | hp
      · exact h.1
      · exact h.2 p hp

lemma dev_formula_eq (vx vy tx ty : ℝ) :
    vx * (-(if 0 < Real.sqrt (tx ^ 2 + ty ^ 2)
        then (tx / Real.sqrt (tx ^ 2 + ty ^ 2), ty / Real.sqrt (tx ^ 2 + ty ^ 2))
        else (tx, ty)).2) +
      vy * (if 0 < Real.sqrt (tx ^ 2 + ty ^ 2)
        then (tx / Real.sqrt (tx ^ 2 + ty ^ 2), ty / Real.sqrt (tx ^ 2 + ty ^ 2))
        else (tx, ty)).1 =
    vx * (-(ty / Real.sqrt (tx ^ 2 + ty ^ 2))) + vy * (tx / Real.sqrt (tx ^ 2 + ty ^ 2)) := by
  by_cases h : 0 < Real.sqrt (tx ^ 2 + ty ^ 2)
  · rw [if_pos h]
  · rw [if_neg h]
    have h0 : Real.sqrt (tx ^ 2 + ty ^ 2) = 0 :=
      le_antisymm (not_lt.mp h) (Real.sqrt_nonneg _)
    have hsum : tx ^ 2 + ty ^ 2 = 0 := (Real.sqrt_eq_zero (by positivity)).mp h0
    have htx : tx = 0 := by nlinarith [sq_nonneg tx, sq_nonneg ty]
    have hty : ty = 0 := by nlinarith [sq_nonneg tx, sq_nonneg ty]
    rw [h0, htx, hty]
    simp

/-- C4: the deviation returned by `compute_deviation` equals the dot product
of `car_position - nearest_point` with the 90°-rotated normalized local
tangent (difference to the next point, or to the previous at the line's
end), and it is exactly 0 whenever the car's position coincides with a
sample point of the reference line. -/
theorem deviation_eq_rotated_tangent_dot_and_zero_on_line
    (line : List (ℝ × ℝ)) (c : ℝ × ℝ) (hne : line ≠ []) :
    (compute_deviation line c).1 = deviationSpec line c ∧
    (c ∈ line → (compute_deviation line c).1 = 0) := by
  constructor
  · simp only [compute_deviation, deviationSpec]
    exact dev_formula_eq _ _ _ _
  · intro hc
    have hmin := nearestIdx_min line c c hc
    have hge : 0 ≤ sqDist (line.getD (nearestIdx line c) (0, 0)) c := by
      rw [sqDist]
      positivity
    have hqq : sqDist c c = 0 := by rw [sqDist]; ring
    have h0 : sqDist (line.getD (nearestIdx line c) (0, 0)) c = 0 :=
      le_antisymm (hqq ▸ hmin) hge
    rw [sqDist] at h0
    have h1 : (line.getD (nearestIdx line c) (0, 0)).1 = c.1 := by
      nlinarith [sq_nonneg ((line.getD (nearestIdx line c) (0, 0)).1 - c.1),
        sq_nonneg ((line.getD (nearestIdx line c) (0, 0)).2 - c.2)]
    have h2 : (line.getD (nearestIdx line c) (0, 0)).2 = c.2 := by
      nlinarith [sq_nonneg ((line.getD (nearestIdx line c) (0, 0)).1 - c.1),
        sq_nonneg ((line.getD (nearestIdx line c) (0, 0)).2 - c.2)]
    simp only [compute_deviation, h1, h2, sub_self, zero_mul, add_zero]

/-- C4 witness: a synthetic point placed exactly on a sample point of a
two-point reference line has deviation exactly 0. -/
theorem deviation_zero_on_line_witness :
    (compute_deviation [((0 : ℝ), (0 : ℝ)), (1, 0)] (0, 0)).1 = 0 :=
  (deviation_eq_rotated_tangent_dot_and_zero_on_line
    [((0 : ℝ), (0 : ℝ)), (1, 0)] (0, 0) (by simp)).2 (by simp)

lemma racing_line_zeros_of_filtered_empty (trajs : List (List TrajSample)) (n : ℕ)
    (h : filter_main_track_points (collectPoints trajs) = []) :
    compute_racing_line trajs n = Except.ok (List.replicate n ((0 : ℝ), (0 : ℝ))) := by
  simp only [compute_racing_line, h]
  by_cases hc : (collectPoints trajs).isEmpty
  · rw [if_pos hc]
  · rw [if_neg hc, if_pos (show ([] : List RLPoint).isEmpty = true from rfl)]

/-- C7 corrected: when pit-lane filtering removes every collected sample
(or none are collected at all), `compute_racing_line` does not report an
error — it returns the all-zeros placeholder line of `n_points` points.
It can raise only later, when no valid bin survives jump-outlier
removal. -/
theorem racing_line_returns_zeros_when_all_points_filtered
    (trajs : List (List TrajSample)) (n : ℕ)
    (h : filter_main_track_points (collectPoints trajs) = []) :
    compute_racing_line trajs n = Except.ok (List.replicate n ((0 : ℝ), (0 : ℝ))) ∧
    ∀ e : String, compute_racing_line trajs n ≠ Except.error e := by
  have h1 := racing_line_zeros_of_filtered_empty trajs n h
  refine ⟨h1, fun e he => ?_⟩
  rw [h1] at he
  cases he

/-- C7 witness: with no trajectories at all, every sample is (vacuously)
filtered out and the builder returns the zero placeholder line. -/
theorem racing_line_returns_zeros_witness :
    filter_main_track_points (collectPoints []) = [] ∧
    compute_racing_line [] 3 = Except.ok (List.replicate 3 ((0 : ℝ), (0 : ℝ))) ∧
    ∀ e : String, compute_racing_line [] 3 ≠ Except.error e :=
  have h : filter_main_track_points (collectPoints []) = [] := by
    simp [filter_main_track_points, collectPoints]
  ⟨h, (racing_line_returns_zeros_when_all_points_filtered [] 3 h).1,
    (racing_line_returns_zeros_when_all_points_filtered [] 3 h).2⟩

/-- C7 counterexample: two collected samples (lapdist range 200 ≥ 100) all
below the 8 m/s speed threshold.  Pit-lane filtering removes every
collected sample, yet `compute_racing_line` returns the all-zeros
placeholder line instead of failing. -/
theorem racing_line_all_filtered_counterexample :
    collectPoints [[⟨0, 0, 5, 0⟩, ⟨1, 0, 5, 200⟩]] ≠ [] ∧
    filter_main_track_points (collectPoints [[⟨0, 0, 5, 0⟩, ⟨1, 0, 5, 200⟩]]) = [] ∧
    compute_racing_line [[⟨0, 0, 5, 0⟩, ⟨1, 0, 5, 200⟩]] 1500 =
      Except.ok (List.replicate 1500 ((0 : ℝ), (0 : ℝ))) := by
  have hcol : collectPoints [[⟨0, 0, 5, 0⟩, ⟨1, 0, 5, 200⟩]] =
      [⟨0, 0, 0, 5⟩, ⟨1, 1, 0, 5⟩] := by
    norm_num [collectPoints, collectCarPoints, colMin, colMax, min_def, max_def]
  have hfil : filter_main_track_points (collectPoints [[⟨0, 0, 5, 0⟩, ⟨1, 0, 5, 200⟩]]) = [] := by
    rw [hcol]
    simp only [filter_main_track_points]
    norm_num [List.filter]
  exact ⟨by rw [hcol]; simp, hfil,
    racing_line_zeros_of_filtered_empty [[⟨0, 0, 5, 0⟩, ⟨1, 0, 5, 200⟩]] 1500 hfil⟩

/-- C3 witness: the sole lap segment of a concrete interpolated lapdist
sequence satisfies the repaired-lapdist invariant. -/
theorem repaired_lapdist_monotone_and_slope_bounded_witness :
    [0, 2, 1] ∈ segmentsOf [0, 2, 1] ∧
      List.Chain' (RepairedStep (120 * (1/100))) (repairSegment (120 * (1/100)) [0, 2, 1]) :=
  ⟨by norm_num [segmentsOf, isLapReset],
    repaired_lapdist_monotone_and_slope_bounded [0, 2, 1] [0, 2, 1]
      (by norm_num [segmentsOf, isLapReset])⟩

end RaceSuite
